import Mathlib

/-!
# Verification of the sparse-matrix repository

The repository contains two JavaScript implementations of the same
sparse-matrix program:

* in src/index.js (embedded below as namespace M1) the class SparseMatrix
  stores its elements in a JS Map keyed by the template string "row,col".
  On natural-number coordinates that string is in bijection with the pair
  (row, col), so the embedding keys the store by the pair directly;
* in src/unnamed/part_000 (embedded below as namespace M2) the class
  SparseMap stores its elements in a JS Map keyed by the number
  row * cols + col, decoded on iteration as (key / cols, key % cols).

A JS Map preserves insertion order, Map.set overwrites an existing key in
place and appends a fresh key at the end, and Map.delete removes the entry.
Both facts are observable through iteration, so the embedding models a Map
as an insertion-ordered association list (namespace JsMap below).  The
numeric values in the program are integers parsed from the input files and
their sums and products; they are embedded as Int.

The file is organised as definitions first (JsMap, M1, M2, Parse), then
the lemma and theorem development.
-/

deriving instance DecidableEq for Except

namespace JsMap

variable {κ : Type} [DecidableEq κ]

/-- JS Map.get: the value of the (unique) entry with the given key. -/
def mget : List (κ × Int) → κ → Option Int
  | [], _ => none
  | kv :: rest, k => if kv.1 = k then some kv.2 else mget rest k

/-- JS Map.set: overwrite in place when the key is present, append otherwise. -/
def mset : List (κ × Int) → κ → Int → List (κ × Int)
  | [], k, v => [(k, v)]
  | kv :: rest, k, v => if kv.1 = k then (k, v) :: rest else kv :: mset rest k v

/-- JS Map.delete: drop the (unique) entry with the given key. -/
def mdel : List (κ × Int) → κ → List (κ × Int)
  | [], _ => []
  | kv :: rest, k => if kv.1 = k then rest else kv :: mdel rest k

/-- The read idiom of both implementations: elements.get(key) || 0. -/
def getv (m : List (κ × Int)) (k : κ) : Int := (mget m k).getD 0

/-- The shared setter body: store when the value is non-zero, delete the
entry otherwise (zero elision). -/
def setv (m : List (κ × Int)) (k : κ) (v : Int) : List (κ × Int) :=
  if v ≠ 0 then mset m k v else mdel m k

/-- The keys of the store, in insertion order. -/
def keys (m : List (κ × Int)) : List κ := m.map Prod.fst

/-- A store that a JS Map can actually be (unique keys) and that satisfies
the zero-elision invariant (no stored zero value). -/
def Wf (m : List (κ × Int)) : Prop :=
  (keys m).Nodup ∧ ∀ kv ∈ m, kv.2 ≠ 0

instance (m : List (κ × Int)) : Decidable (Wf m) := by
  unfold Wf; infer_instance

/-- Total contribution of a list of (key, delta) updates at one key. -/
def contribAt (ts : List (κ × Int)) (k : κ) : Int :=
  ts.foldr (fun t s => if t.1 = k then t.2 + s else s) 0

/-- The accumulation loop shared by the element loop of add and the inner
loop of multiply: for each (key, delta) in order, set key to its current
value plus delta. -/
def applyAdd (m ts : List (κ × Int)) : List (κ × Int) :=
  ts.foldl (fun acc t => setv acc t.1 (getv acc t.1 + t.2)) m

/-- The element loop of subtract: set key to its current value minus delta. -/
def applySub (m ts : List (κ × Int)) : List (κ × Int) :=
  ts.foldl (fun acc t => setv acc t.1 (getv acc t.1 - t.2)) m

/-- The verbatim copy loop of add/subtract in src/index.js:
result.elements.set(key, value) over the entries of A, starting empty. -/
def copyRaw (src : List (κ × Int)) : List (κ × Int) :=
  src.foldl (fun es kv => mset es kv.1 kv.2) []

/-- The copy loop of add/subtract in src/unnamed/part_000, which goes
through setElement (zero elision included). -/
def copySet (src : List (κ × Int)) : List (κ × Int) :=
  src.foldl (fun es kv => setv es kv.1 kv.2) []

end JsMap

/-- The only well-defined operation failure: incompatible operand shapes. -/
inductive MatrixError
  | dimensionMismatch
deriving DecidableEq

namespace M1

/-- The SparseMatrix of src/index.js: rows, cols and the Map keyed by the
template string "row,col", embedded as the (row, col) pair that string
encodes (the encoding is a bijection on natural-number coordinates). -/
structure SparseMatrix where
  rows : Nat
  cols : Nat
  elements : List ((Nat × Nat) × Int)
deriving DecidableEq

/-- getElement of src/index.js: elements.get(key) || 0. -/
def getElement (m : SparseMatrix) (r c : Nat) : Int :=
  JsMap.getv m.elements (r, c)

/-- setElement of src/index.js: store non-zero values, delete on zero. -/
def setElement (m : SparseMatrix) (r c : Nat) (v : Int) : SparseMatrix :=
  { m with elements := JsMap.setv m.elements (r, c) v }

/-- elements.size of the underlying Map. -/
def size (m : SparseMatrix) : Nat := m.elements.length

/-- The (row, col, value) triples the store holds, in insertion order. -/
def triples (m : SparseMatrix) : List (Nat × Nat × Int) :=
  m.elements.map (fun kv => (kv.1.1, kv.1.2, kv.2))

/-- Well-formed matrix: a real JS Map (unique keys), the zero-elision
invariant, and invariant 2 of the spec (in-bounds coordinates). -/
def Wf (m : SparseMatrix) : Prop :=
  JsMap.Wf m.elements ∧ ∀ kv ∈ m.elements, kv.1.1 < m.rows ∧ kv.1.2 < m.cols

instance (m : SparseMatrix) : Decidable (Wf m) := by
  unfold Wf; infer_instance

/-- add of src/index.js: copy the entries of this verbatim
(result.elements.set), then fold the entries of other through
setElement(row, col, result.getElement(row, col) + value).  The dimension
check is present in the source but commented out, so no error is ever
raised; the Except type keeps the failure channel of the operation family
visible. -/
def add (a b : SparseMatrix) : Except MatrixError SparseMatrix :=
  .ok <| b.elements.foldl
    (fun res kv =>
      setElement res kv.1.1 kv.1.2 (getElement res kv.1.1 kv.1.2 + kv.2))
    { rows := a.rows, cols := a.cols,
      elements := a.elements.foldl (fun es kv => JsMap.mset es kv.1 kv.2) [] }

/-- subtract of src/index.js: same as add with pointwise difference; its
dimension check is likewise commented out. -/
def subtract (a b : SparseMatrix) : Except MatrixError SparseMatrix :=
  .ok <| b.elements.foldl
    (fun res kv =>
      setElement res kv.1.1 kv.1.2 (getElement res kv.1.1 kv.1.2 - kv.2))
    { rows := a.rows, cols := a.cols,
      elements := a.elements.foldl (fun es kv => JsMap.mset es kv.1 kv.2) [] }

/-- multiply of src/index.js: throws on this.cols !== other.rows, else
accumulates value1 * value2 at (i, j) over all pairs of entries (i,k) of
this and (row,j) of other with k === row. -/
def multiply (a b : SparseMatrix) : Except MatrixError SparseMatrix :=
  if a.cols ≠ b.rows then .error .dimensionMismatch
  else .ok <| a.elements.foldl
    (fun res kv1 => b.elements.foldl
      (fun res2 kv2 =>
        if kv1.1.2 = kv2.1.1 then
          setElement res2 kv1.1.1 kv2.1.2
            (getElement res2 kv1.1.1 kv2.1.2 + kv1.2 * kv2.2)
        else res2)
      res)
    { rows := a.rows, cols := b.cols, elements := [] }

/-- The inner loop of multiply, at element-list level. -/
def mulInner (kv1 : (Nat × Nat) × Int) (bs es : List ((Nat × Nat) × Int)) :
    List ((Nat × Nat) × Int) :=
  bs.foldl (fun acc kv2 =>
    if kv1.1.2 = kv2.1.1 then
      JsMap.setv acc (kv1.1.1, kv2.1.2)
        (JsMap.getv acc (kv1.1.1, kv2.1.2) + kv1.2 * kv2.2)
    else acc) es

/-- The nested loops of multiply, at element-list level. -/
def mulElems (as bs : List ((Nat × Nat) × Int)) : List ((Nat × Nat) × Int) :=
  as.foldl (fun es kv1 => mulInner kv1 bs es) []

/-- The contributions one entry of A generates against the entries of B,
in processing order. -/
def mulContribs (kv1 : (Nat × Nat) × Int) (bs : List ((Nat × Nat) × Int)) :
    List ((Nat × Nat) × Int) :=
  bs.filterMap (fun kv2 =>
    if kv1.1.2 = kv2.1.1 then some ((kv1.1.1, kv2.1.2), kv1.2 * kv2.2)
    else none)

/-- All contributions of the nested multiply loops, in processing order. -/
def allContribs (as bs : List ((Nat × Nat) × Int)) :
    List ((Nat × Nat) × Int) :=
  as.foldr (fun kv1 acc => mulContribs kv1 bs ++ acc) []

end M1

namespace M2

/-- The SparseMap of src/unnamed/part_000: rows, cols and the Map keyed by
row * this.cols + col.  The SparseMatrix class of that file is a thin
wrapper delegating every operation to its SparseMap, so the embedding
works at SparseMap level. -/
structure SparseMap where
  rows : Nat
  cols : Nat
  elements : List (Nat × Int)
deriving DecidableEq

/-- getKey(row, col) = row * this.cols + col. -/
def SparseMap.getKey (m : SparseMap) (r c : Nat) : Nat := r * m.cols + c

/-- get: elements.get(getKey(row, col)) || 0. -/
def SparseMap.get (m : SparseMap) (r c : Nat) : Int :=
  JsMap.getv m.elements (m.getKey r c)

/-- set: store non-zero values at getKey(row, col), delete on zero. -/
def SparseMap.set (m : SparseMap) (r c : Nat) (v : Int) : SparseMap :=
  { m with elements := JsMap.setv m.elements (m.getKey r c) v }

/-- The size getter. -/
def SparseMap.size (m : SparseMap) : Nat := m.elements.length

/-- The iterator of SparseMap: yields (key / cols, key % cols, value) per
entry, in insertion order.  (In JS a matrix with cols = 0 would decode to
NaN coordinates; here Nat division by zero is used.  Every statement below
about decoded triples carries an in-bounds hypothesis, which forces the
store to be empty when cols = 0, so the divergence is unreachable.) -/
def SparseMap.triples (m : SparseMap) : List (Nat × Nat × Int) :=
  m.elements.map (fun kv => (kv.1 / m.cols, kv.1 % m.cols, kv.2))

/-- add of src/unnamed/part_000: copy the decoded triples of this through
setElement, then fold the decoded triples of other through
setElement(row, col, getElement(row, col) + value).  Its dimension check
is absent from the source, so no error is ever raised. -/
def SparseMap.add (a b : SparseMap) : Except MatrixError SparseMap :=
  .ok <| b.triples.foldl
    (fun res t => res.set t.1 t.2.1 (res.get t.1 t.2.1 + t.2.2))
    (a.triples.foldl (fun res t => res.set t.1 t.2.1 t.2.2)
      ⟨a.rows, a.cols, []⟩)

/-- subtract of src/unnamed/part_000: same as add with pointwise
difference; its dimension check is likewise absent. -/
def SparseMap.subtract (a b : SparseMap) : Except MatrixError SparseMap :=
  .ok <| b.triples.foldl
    (fun res t => res.set t.1 t.2.1 (res.get t.1 t.2.1 - t.2.2))
    (a.triples.foldl (fun res t => res.set t.1 t.2.1 t.2.2)
      ⟨a.rows, a.cols, []⟩)

/-- multiply of src/unnamed/part_000: throws on this.cols !== other.rows,
else accumulates value1 * value2 at (i, j) over all pairs of decoded
triples (i,k,value1) of this and (row,j,value2) of other with k === row. -/
def SparseMap.multiply (a b : SparseMap) : Except MatrixError SparseMap :=
  if a.cols ≠ b.rows then .error .dimensionMismatch
  else .ok <| a.triples.foldl
    (fun res t1 => b.triples.foldl
      (fun res2 t2 =>
        if t1.2.1 = t2.1 then
          res2.set t1.1 t2.2.1 (res2.get t1.1 t2.2.1 + t1.2.2 * t2.2.2)
        else res2)
      res)
    ⟨a.rows, b.cols, []⟩

/-- Store invariants for the numeric-keyed map: unique keys, no zero
values, and every key below rows * cols (that is, the key of some
in-bounds coordinate). -/
def SparseMap.Wf (m : SparseMap) : Prop :=
  JsMap.Wf m.elements ∧ ∀ kv ∈ m.elements, kv.1 < m.rows * m.cols

/-- Decode one numeric entry to a pair-keyed entry (the iterator view of
one entry). -/
def decE (cols : Nat) (kv : Nat × Int) : (Nat × Nat) × Int :=
  ((kv.1 / cols, kv.1 % cols), kv.2)

/-- Encode a pair-keyed entry back to its numeric key. -/
def encE (cols : Nat) (kv : (Nat × Nat) × Int) : Nat × Int :=
  (kv.1.1 * cols + kv.1.2, kv.2)

/-- An iterator triple viewed as a pair-keyed entry. -/
def toPair (t : Nat × Nat × Int) : (Nat × Nat) × Int := ((t.1, t.2.1), t.2.2)

/-- The inner loop of multiply of part_000, at element-list level; cols is
the column count of the result, that is b.cols. -/
def mulInnerE (cols : Nat) (t1 : Nat × Nat × Int) (bts : List (Nat × Nat × Int))
    (es : List (Nat × Int)) : List (Nat × Int) :=
  bts.foldl (fun es2 t2 =>
    if t1.2.1 = t2.1 then
      JsMap.setv es2 (t1.1 * cols + t2.2.1)
        (JsMap.getv es2 (t1.1 * cols + t2.2.1) + t1.2.2 * t2.2.2)
    else es2) es

/-- The nested multiply loops of part_000, at element-list level. -/
def mulElemsE (cols : Nat) (ats bts : List (Nat × Nat × Int)) :
    List (Nat × Int) :=
  ats.foldl (fun es t1 => mulInnerE cols t1 bts es) []

instance (m : SparseMap) : Decidable m.Wf := by
  unfold SparseMap.Wf; infer_instance

/-- The matrices obtainable from the empty constructor by a sequence of
in-bounds set calls. -/
inductive Built : SparseMap → Prop
  | init (rows cols : Nat) : Built ⟨rows, cols, []⟩
  | step {m : SparseMap} (r c : Nat) (v : Int) :
      Built m → r < m.rows → c < m.cols → Built (m.set r c v)

end M2

namespace Parse

/-- The JS whitespace class \s, restricted to the characters that survive
in a line of a text file (space, tab, newline, carriage return, vertical
tab, form feed, no-break space). -/
def jsSpace (c : Char) : Bool :=
  c = ' ' || c = '\t' || c = '\n' || c = '\r'
    || c = Char.ofNat 11 || c = Char.ofNat 12 || c = Char.ofNat 160

/-- String.prototype.trim, on the character list of a line. -/
def trimL (cs : List Char) : List Char :=
  ((cs.dropWhile jsSpace).reverse.dropWhile jsSpace).reverse

/-- content.split('\n'): split at every newline, keeping empty pieces
(JS: "".split is [""], a trailing newline yields a final ""). -/
def splitNl : List Char → List (List Char)
  | [] => [[]]
  | c :: cs =>
    if c = '\n' then [] :: splitNl cs
    else
      match splitNl cs with
      | [] => [[c]]
      | l :: ls => (c :: l) :: ls

/-- content.split('\n').map(line => line.trim()).filter(line => line). -/
def linesOf (content : String) : List (List Char) :=
  ((splitNl content.toList).map trimL).filter (fun l => l ≠ [])

/-- A maximal run of decimal digits (the regex \d+) together with its
parseInt value.  Fails when no digit is present. -/
def digitsRun (cs : List Char) : Option (Nat × List Char) :=
  let ds := cs.takeWhile Char.isDigit
  if ds.isEmpty then none
  else some (ds.foldl (fun n c => n * 10 + (c.toNat - 48)) 0,
    cs.dropWhile Char.isDigit)

/-- Match a literal pattern followed by the captured \d+ at this exact
position. -/
def keyNumAt (pat cs : List Char) : Option Nat :=
  if pat.isPrefixOf cs then (digitsRun (cs.drop pat.length)).map Prod.fst
  else none

/-- The regex search line.match(/pat(\d+)/): try each starting position
left to right. -/
def searchKeyNum (pat : List Char) : List Char → Option Nat
  | [] => keyNumAt pat []
  | c :: cs =>
    match keyNumAt pat (c :: cs) with
    | some n => some n
    | none => searchKeyNum pat cs

/-- The literal part of /rows=(\d+)/. -/
def rowsPat : List Char := ['r', 'o', 'w', 's', '=']

/-- The literal part of /cols=(\d+)/. -/
def colsPat : List Char := ['c', 'o', 'l', 's', '=']

/-- Match the element pattern \((\d+),\s*(\d+),\s*(-?\d+)\) at this exact
position (greedy \d+ and \s* never need backtracking here, because no
digit is a comma and no whitespace is a digit). -/
def elemAt (cs : List Char) : Option (Nat × Nat × Int) :=
  match cs with
  | '(' :: cs =>
    match digitsRun cs with
    | none => none
    | some (r, cs) =>
      match cs with
      | ',' :: cs =>
        match digitsRun (cs.dropWhile (fun ch => jsSpace ch)) with
        | none => none
        | some (c0, cs) =>
          match cs with
          | ',' :: cs =>
            match cs.dropWhile (fun ch => jsSpace ch) with
            | '-' :: cs =>
              match digitsRun cs with
              | none => none
              | some (v, cs) =>
                match cs with
                | ')' :: _ => some (r, c0, -(v : Int))
                | _ => none
            | cs2 =>
              match digitsRun cs2 with
              | none => none
              | some (v, cs) =>
                match cs with
                | ')' :: _ => some (r, c0, (v : Int))
                | _ => none
          | _ => none
      | _ => none
  | _ => none

/-- The regex search line.match of the element pattern: first matching
position, left to right. -/
def elemSearch : List Char → Option (Nat × Nat × Int)
  | [] => none
  | c :: cs =>
    match elemAt (c :: cs) with
    | some t => some t
    | none => elemSearch cs

/-- The two MalformedInput messages the loaders throw. -/
inductive ParseError
  | insufficientData
  | wrongFormat
deriving DecidableEq

/-- FileHandler.readMatrix of part_000 (and the parsing phase of
loadFromFile of index.js, which is line for line the same): split on
newlines, trim, drop blank lines, require at least 3 lines, match the two
headers, then collect every line from index 2 that matches the element
pattern; non-matching lines are skipped. -/
def parseMatrix (content : String) :
    Except ParseError (Nat × Nat × List (Nat × Nat × Int)) :=
  match linesOf content with
  | l0 :: l1 :: l2 :: rest =>
    match searchKeyNum rowsPat l0, searchKeyNum colsPat l1 with
    | some r, some c =>
      .ok (r, c, (l2 :: rest).filterMap (fun l => elemSearch l))
    | _, _ => .error .wrongFormat
  | _ => .error .insufficientData

/-- loadFromFile of index.js after reading the file content: parse, then
set each parsed element on an empty matrix of the parsed dimensions. -/
def loadMatrix (content : String) : Except ParseError M1.SparseMatrix :=
  match parseMatrix content with
  | .error e => .error e
  | .ok (r, c, ts) =>
    .ok <| ts.foldl (fun m t => M1.setElement m t.1 t.2.1 t.2.2) ⟨r, c, []⟩

end Parse

/-! ## Lemmas about the JS Map model -/

namespace JsMap

variable {κ : Type} [DecidableEq κ]

@[simp] theorem mget_nil (k : κ) : mget ([] : List (κ × Int)) k = none := rfl

theorem mget_mset_self (m : List (κ × Int)) (k : κ) (v : Int) :
    mget (mset m k v) k = some v := by
  induction m with
  | nil => simp [mset, mget]
  | cons kv rest ih =>
    by_cases h : kv.1 = k
    · simp [mset, h, mget]
    · simp [mset, h, mget, ih]

theorem mget_mset_ne (m : List (κ × Int)) {k q : κ} (v : Int) (h : q ≠ k) :
    mget (mset m k v) q = mget m q := by
  induction m with
  | nil => simp [mset, mget, Ne.symm h]
  | cons kv rest ih =>
    by_cases hk : kv.1 = k
    · subst hk; simp [mset, mget, Ne.symm h]
    · simp [mset, hk, mget, ih]

theorem mget_mdel_ne (m : List (κ × Int)) {k q : κ} (h : q ≠ k) :
    mget (mdel m k) q = mget m q := by
  induction m with
  | nil => simp [mdel]
  | cons kv rest ih =>
    by_cases hk : kv.1 = k
    · subst hk; simp [mdel, mget, Ne.symm h]
    · simp [mdel, hk, mget, ih]

theorem mem_keys_iff_isSome (m : List (κ × Int)) (k : κ) :
    k ∈ keys m ↔ (mget m k).isSome := by
  induction m with
  | nil => simp [keys, mget]
  | cons kv rest ih =>
    by_cases hk : kv.1 = k
    · simp [keys, mget, hk]
    · simp only [keys, List.map_cons, List.mem_cons, mget, hk, if_false]
      constructor
      · rintro (h | h)
        · exact absurd h.symm hk
        · exact (ih.mp h)
      · intro h; exact Or.inr (ih.mpr h)

theorem mget_eq_none_iff (m : List (κ × Int)) (k : κ) :
    mget m k = none ↔ k ∉ keys m := by
  rw [mem_keys_iff_isSome]
  cases h : mget m k <;> simp [h]

theorem mget_mem (m : List (κ × Int)) {k : κ} {v : Int}
    (h : mget m k = some v) : (k, v) ∈ m := by
  induction m with
  | nil => simp [mget] at h
  | cons kv rest ih =>
    by_cases hk : kv.1 = k
    · rw [mget, if_pos hk] at h
      subst hk
      obtain rfl : kv.2 = v := by simpa using h
      exact List.mem_cons_self kv rest
    · rw [mget, if_neg hk] at h
      exact List.mem_cons_of_mem kv (ih h)

theorem mget_of_mem (m : List (κ × Int)) {k : κ} {v : Int}
    (hn : (keys m).Nodup) (h : (k, v) ∈ m) : mget m k = some v := by
  induction m with
  | nil => simp at h
  | cons kv rest ih =>
    rw [keys, List.map_cons, List.nodup_cons] at hn
    rcases List.mem_cons.mp h with h | h
    · subst h; simp [mget]
    · have hk : kv.1 ≠ k := by
        intro he
        exact hn.1 (he ▸ (List.mem_map_of_mem Prod.fst h))
      rw [mget, if_neg hk]
      exact ih hn.2 h

theorem mdel_sublist (m : List (κ × Int)) (k : κ) : (mdel m k).Sublist m := by
  induction m with
  | nil => simp [mdel]
  | cons kv rest ih =>
    by_cases hk : kv.1 = k
    · simp only [mdel, if_pos hk]
      exact List.sublist_cons_self kv rest
    · simpa [mdel, hk] using List.Sublist.cons₂ kv ih

theorem mget_mdel_self (m : List (κ × Int)) (k : κ)
    (hn : (keys m).Nodup) : mget (mdel m k) k = none := by
  induction m with
  | nil => simp [mdel, mget]
  | cons kv rest ih =>
    rw [keys, List.map_cons, List.nodup_cons] at hn
    by_cases hk : kv.1 = k
    · rw [mdel, if_pos hk, mget_eq_none_iff]
      exact hk ▸ hn.1
    · rw [mdel, if_neg hk, mget, if_neg hk]
      exact ih hn.2

theorem mem_keys_mset (m : List (κ × Int)) (k : κ) (v : Int) (q : κ) :
    q ∈ keys (mset m k v) ↔ q = k ∨ q ∈ keys m := by
  induction m with
  | nil => simp [mset, keys]
  | cons kv rest ih =>
    by_cases hk : kv.1 = k
    · subst hk; simp [mset, keys]
    · simp only [mset, hk, if_false, keys, List.map_cons, List.mem_cons]
      rw [keys] at ih
      tauto

theorem nodup_keys_mset (m : List (κ × Int)) (k : κ) (v : Int)
    (hn : (keys m).Nodup) : (keys (mset m k v)).Nodup := by
  induction m with
  | nil => simp [mset, keys]
  | cons kv rest ih =>
    rw [keys, List.map_cons, List.nodup_cons] at hn
    by_cases hk : kv.1 = k
    · subst hk
      have hms : mset (kv :: rest) kv.1 v = (kv.1, v) :: rest := by simp [mset]
      rw [hms, keys, List.map_cons, List.nodup_cons]
      exact hn
    · rw [mset, if_neg hk, keys, List.map_cons, List.nodup_cons]
      refine ⟨?_, ih hn.2⟩
      rw [show (List.map Prod.fst (mset rest k v)) = keys (mset rest k v) from rfl]
      intro hmem
      rcases (mem_keys_mset rest k v kv.1).mp hmem with h | h
      · exact hk h
      · exact hn.1 h

theorem nodup_keys_mdel (m : List (κ × Int)) (k : κ)
    (hn : (keys m).Nodup) : (keys (mdel m k)).Nodup :=
  ((mdel_sublist m k).map Prod.fst).nodup hn

theorem mem_mset (m : List (κ × Int)) (k : κ) (v : Int) {kv : κ × Int}
    (h : kv ∈ mset m k v) : kv = (k, v) ∨ kv ∈ m := by
  induction m with
  | nil => simpa [mset] using h
  | cons hd rest ih =>
    by_cases hk : hd.1 = k
    · rw [mset, if_pos hk] at h
      rcases List.mem_cons.mp h with h | h
      · exact Or.inl h
      · exact Or.inr (List.mem_cons_of_mem hd h)
    · rw [mset, if_neg hk] at h
      rcases List.mem_cons.mp h with h | h
      · exact Or.inr (h ▸ List.mem_cons_self hd rest)
      · rcases ih h with h | h
        · exact Or.inl h
        · exact Or.inr (List.mem_cons_of_mem hd h)

theorem Wf.setv {m : List (κ × Int)} (h : Wf m) (k : κ) (v : Int) :
    Wf (JsMap.setv m k v) := by
  unfold JsMap.setv
  by_cases hv : v ≠ 0
  · rw [if_pos hv]
    refine ⟨nodup_keys_mset m k v h.1, ?_⟩
    intro kv hkv
    rcases mem_mset m k v hkv with rfl | hkv
    · exact hv
    · exact h.2 kv hkv
  · rw [if_neg hv]
    exact ⟨nodup_keys_mdel m k h.1, fun kv hkv => h.2 kv ((mdel_sublist m k).mem hkv)⟩

theorem nodup_keys_setv {m : List (κ × Int)} (hn : (keys m).Nodup)
    (k : κ) (v : Int) : (keys (setv m k v)).Nodup := by
  unfold setv
  by_cases hv : v ≠ 0
  · rw [if_pos hv]; exact nodup_keys_mset m k v hn
  · rw [if_neg hv]; exact nodup_keys_mdel m k hn

theorem getv_setv {m : List (κ × Int)} (hn : (keys m).Nodup)
    (k : κ) (v : Int) (q : κ) :
    getv (setv m k v) q = if q = k then v else getv m q := by
  by_cases hq : q = k
  · subst hq
    rw [if_pos rfl]
    unfold setv
    by_cases hv : v ≠ 0
    · rw [if_pos hv, getv, mget_mset_self]; rfl
    · push_neg at hv
      subst hv
      simp [getv, mget_mdel_self m q hn]
  · rw [if_neg hq]
    unfold setv
    by_cases hv : v ≠ 0
    · rw [if_pos hv, getv, mget_mset_ne m v hq]; rfl
    · rw [if_neg hv, getv, mget_mdel_ne m hq]; rfl

theorem mem_keys_setv {m : List (κ × Int)} {k q : κ} {v : Int}
    (h : q ∈ keys (setv m k v)) : q = k ∨ q ∈ keys m := by
  unfold setv at h
  by_cases hv : v ≠ 0
  · rw [if_pos hv] at h
    exact (mem_keys_mset m k v q).mp h
  · rw [if_neg hv] at h
    exact Or.inr (((mdel_sublist m k).map Prod.fst).mem h)

theorem getv_ne_zero_iff {m : List (κ × Int)} (h : Wf m) (k : κ) :
    getv m k ≠ 0 ↔ k ∈ keys m := by
  constructor
  · intro hne
    rw [mem_keys_iff_isSome]
    cases hm : mget m k with
    | none => rw [getv, hm] at hne; exact absurd rfl hne
    | some v => simp
  · intro hmem
    rw [mem_keys_iff_isSome] at hmem
    cases hm : mget m k with
    | none => rw [hm] at hmem; simp at hmem
    | some v =>
      rw [getv, hm]
      exact h.2 (k, v) (mget_mem m hm)

theorem mget_eq_some_iff {m : List (κ × Int)} (hn : (keys m).Nodup)
    (k : κ) (v : Int) : mget m k = some v ↔ (k, v) ∈ m :=
  ⟨mget_mem m, mget_of_mem m hn⟩

@[simp] theorem contribAt_nil (k : κ) : contribAt ([] : List (κ × Int)) k = 0 := rfl

theorem contribAt_cons (t : κ × Int) (ts : List (κ × Int)) (k : κ) :
    contribAt (t :: ts) k
      = if t.1 = k then t.2 + contribAt ts k else contribAt ts k := rfl

theorem contribAt_append (ts us : List (κ × Int)) (k : κ) :
    contribAt (ts ++ us) k = contribAt ts k + contribAt us k := by
  induction ts with
  | nil => simp
  | cons t ts ih =>
    by_cases h : t.1 = k
    · simp only [List.cons_append, contribAt_cons, if_pos h, ih]; ring
    · simp only [List.cons_append, contribAt_cons, if_neg h, ih]

@[simp] theorem applyAdd_nil (m : List (κ × Int)) : applyAdd m [] = m := rfl

@[simp] theorem applySub_nil (m : List (κ × Int)) : applySub m [] = m := rfl

theorem applyAdd_cons (m : List (κ × Int)) (t : κ × Int) (ts : List (κ × Int)) :
    applyAdd m (t :: ts) = applyAdd (setv m t.1 (getv m t.1 + t.2)) ts := rfl

theorem applySub_cons (m : List (κ × Int)) (t : κ × Int) (ts : List (κ × Int)) :
    applySub m (t :: ts) = applySub (setv m t.1 (getv m t.1 - t.2)) ts := rfl

theorem applyAdd_append (m ts us : List (κ × Int)) :
    applyAdd m (ts ++ us) = applyAdd (applyAdd m ts) us := by
  simp [applyAdd, List.foldl_append]

theorem nodup_keys_applyAdd {m : List (κ × Int)} (hn : (keys m).Nodup)
    (ts : List (κ × Int)) : (keys (applyAdd m ts)).Nodup := by
  induction ts generalizing m with
  | nil => exact hn
  | cons t ts ih => exact applyAdd_cons m t ts ▸ ih (nodup_keys_setv hn t.1 _)

theorem Wf.applyAdd {m : List (κ × Int)} (h : Wf m) (ts : List (κ × Int)) :
    Wf (JsMap.applyAdd m ts) := by
  induction ts generalizing m with
  | nil => exact h
  | cons t ts ih => exact applyAdd_cons m t ts ▸ ih (h.setv t.1 _)

theorem Wf.applySub {m : List (κ × Int)} (h : Wf m) (ts : List (κ × Int)) :
    Wf (JsMap.applySub m ts) := by
  induction ts generalizing m with
  | nil => exact h
  | cons t ts ih => exact applySub_cons m t ts ▸ ih (h.setv t.1 _)

theorem getv_applyAdd {m : List (κ × Int)} (hn : (keys m).Nodup)
    (ts : List (κ × Int)) (k : κ) :
    getv (applyAdd m ts) k = getv m k + contribAt ts k := by
  induction ts generalizing m with
  | nil => simp
  | cons t ts ih =>
    rw [applyAdd_cons, ih (nodup_keys_setv hn t.1 _), getv_setv hn, contribAt_cons]
    by_cases h : k = t.1
    · subst h; rw [if_pos rfl, if_pos rfl]; ring
    · rw [if_neg h, if_neg (fun he => h he.symm)]

theorem getv_applySub {m : List (κ × Int)} (hn : (keys m).Nodup)
    (ts : List (κ × Int)) (k : κ) :
    getv (applySub m ts) k = getv m k - contribAt ts k := by
  induction ts generalizing m with
  | nil => simp
  | cons t ts ih =>
    rw [applySub_cons, ih (nodup_keys_setv hn t.1 _), getv_setv hn, contribAt_cons]
    by_cases h : k = t.1
    · subst h; rw [if_pos rfl, if_pos rfl]; ring
    · rw [if_neg h, if_neg (fun he => h he.symm)]

theorem mem_keys_applyAdd {m ts : List (κ × Int)} {k : κ}
    (h : k ∈ keys (applyAdd m ts)) : k ∈ keys m ∨ k ∈ ts.map Prod.fst := by
  induction ts generalizing m with
  | nil => exact Or.inl h
  | cons t ts ih =>
    rw [applyAdd_cons] at h
    rcases ih h with h | h
    · rcases mem_keys_setv h with h | h
      · right; simp [h]
      · exact Or.inl h
    · right
      simp only [List.map_cons, List.mem_cons]
      exact Or.inr h

theorem mem_keys_applySub {m ts : List (κ × Int)} {k : κ}
    (h : k ∈ keys (applySub m ts)) : k ∈ keys m ∨ k ∈ ts.map Prod.fst := by
  induction ts generalizing m with
  | nil => exact Or.inl h
  | cons t ts ih =>
    rw [applySub_cons] at h
    rcases ih h with h | h
    · rcases mem_keys_setv h with h | h
      · right; simp [h]
      · exact Or.inl h
    · right
      simp only [List.map_cons, List.mem_cons]
      exact Or.inr h

theorem mset_of_not_mem (m : List (κ × Int)) {k : κ} (v : Int)
    (h : k ∉ keys m) : mset m k v = m ++ [(k, v)] := by
  induction m with
  | nil => simp [mset]
  | cons kv rest ih =>
    simp only [keys, List.map_cons, List.mem_cons] at h
    push_neg at h
    rw [mset, if_neg (fun he => h.1 he.symm), ih h.2]
    rfl

theorem mdel_of_not_mem (m : List (κ × Int)) {k : κ}
    (h : k ∉ keys m) : mdel m k = m := by
  induction m with
  | nil => rfl
  | cons kv rest ih =>
    simp only [keys, List.map_cons, List.mem_cons] at h
    push_neg at h
    rw [mdel, if_neg (fun he => h.1 he.symm), ih h.2]

theorem length_mset_mem (m : List (κ × Int)) {k : κ} (v : Int)
    (h : k ∈ keys m) : (mset m k v).length = m.length := by
  induction m with
  | nil => simp [keys] at h
  | cons kv rest ih =>
    by_cases hk : kv.1 = k
    · rw [mset, if_pos hk]; rfl
    · simp only [keys, List.map_cons, List.mem_cons] at h
      rcases h with h | h
      · exact absurd h.symm hk
      · rw [mset, if_neg hk, List.length_cons, List.length_cons, ih h]

theorem length_mdel_mem (m : List (κ × Int)) {k : κ}
    (h : k ∈ keys m) : (mdel m k).length + 1 = m.length := by
  induction m with
  | nil => simp [keys] at h
  | cons kv rest ih =>
    by_cases hk : kv.1 = k
    · rw [mdel, if_pos hk]; rfl
    · simp only [keys, List.map_cons, List.mem_cons] at h
      rcases h with h | h
      · exact absurd h.symm hk
      · rw [mdel, if_neg hk, List.length_cons, List.length_cons, ih h]

theorem foldl_mset_append (src : List (κ × Int)) :
    ∀ acc, (keys src).Nodup → (∀ k ∈ keys src, k ∉ keys acc) →
      src.foldl (fun es kv => mset es kv.1 kv.2) acc = acc ++ src := by
  induction src with
  | nil => intro acc _ _; simp
  | cons kv rest ih =>
    intro acc hn hdisj
    rw [keys, List.map_cons, List.nodup_cons] at hn
    have hhd : kv.1 ∉ keys acc := hdisj kv.1 (by simp [keys])
    rw [List.foldl_cons, mset_of_not_mem acc kv.2 hhd]
    rw [ih (acc ++ [(kv.1, kv.2)]) hn.2 ?_]
    · simp
    · intro k hk
      have hk1 : k ≠ kv.1 := fun he => hn.1 (he ▸ hk)
      have hk2 : k ∉ keys acc :=
        hdisj k (by rw [keys, List.map_cons]; exact List.mem_cons_of_mem kv.1 hk)
      simp only [keys, List.map_append, List.mem_append]
      push_neg
      exact ⟨hk2, by simpa using hk1⟩

theorem copyRaw_eq {src : List (κ × Int)} (hn : (keys src).Nodup) :
    copyRaw src = src := by
  have h := foldl_mset_append src [] hn (by simp [keys])
  simpa [copyRaw] using h

theorem foldl_setv_eq_mset (src : List (κ × Int)) :
    ∀ acc, (∀ kv ∈ src, kv.2 ≠ 0) →
      src.foldl (fun es kv => setv es kv.1 kv.2) acc
        = src.foldl (fun es kv => mset es kv.1 kv.2) acc := by
  induction src with
  | nil => intro acc _; rfl
  | cons kv rest ih =>
    intro acc hv
    rw [List.foldl_cons, List.foldl_cons, setv,
      if_pos (hv kv (List.mem_cons_self kv rest))]
    exact ih _ (fun t ht => hv t (List.mem_cons_of_mem kv ht))

theorem copySet_eq {src : List (κ × Int)} (h : Wf src) : copySet src = src := by
  rw [copySet, foldl_setv_eq_mset src [] h.2]
  exact copyRaw_eq h.1

theorem contribAt_of_not_mem {m : List (κ × Int)} {q : κ}
    (h : q ∉ keys m) : contribAt m q = 0 := by
  induction m with
  | nil => rfl
  | cons kv rest ih =>
    simp only [keys, List.map_cons, List.mem_cons] at h
    push_neg at h
    rw [contribAt_cons, if_neg (fun he => h.1 he.symm)]
    exact ih h.2

theorem contribAt_eq_getv {m : List (κ × Int)} (hn : (keys m).Nodup) (q : κ) :
    contribAt m q = getv m q := by
  induction m with
  | nil => rfl
  | cons kv rest ih =>
    rw [keys, List.map_cons, List.nodup_cons] at hn
    rw [contribAt_cons, getv, mget]
    by_cases h : kv.1 = q
    · rw [if_pos h, if_pos h, Option.getD_some]
      rw [contribAt_of_not_mem (h ▸ hn.1), add_zero]
    · rw [if_neg h, if_neg h]
      exact ih hn.2

theorem Wf_nil {γ : Type} : Wf ([] : List (γ × Int)) := ⟨List.nodup_nil, by simp⟩

@[simp] theorem getv_nil (k : κ) : getv ([] : List (κ × Int)) k = 0 := rfl

theorem getv_cons (kv : κ × Int) (m : List (κ × Int)) (q : κ) :
    getv (kv :: m) q = if kv.1 = q then kv.2 else getv m q := by
  have hm : mget (kv :: m) q = if kv.1 = q then some kv.2 else mget m q := rfl
  rw [getv, hm]
  by_cases h : kv.1 = q
  · rw [if_pos h, if_pos h, Option.getD_some]
  · rw [if_neg h, if_neg h]; rfl

theorem getv_eq_zero_of_not_mem {m : List (κ × Int)} {q : κ}
    (h : q ∉ keys m) : getv m q = 0 := by
  rw [getv, (mget_eq_none_iff m q).mpr h, Option.getD_none]

theorem contribAt_cons_mk (p : κ) (w : Int) (ts : List (κ × Int)) (k : κ) :
    contribAt ((p, w) :: ts) k
      = if p = k then w + contribAt ts k else contribAt ts k := rfl

end JsMap

/-! ## Lemmas about the src/index.js implementation -/

namespace M1

theorem foldl_lift {α : Type} (g : List ((Nat × Nat) × Int) → α → List ((Nat × Nat) × Int))
    (l : List α) : ∀ (R C : Nat) (es : List ((Nat × Nat) × Int)),
    l.foldl (fun m t => SparseMatrix.mk m.rows m.cols (g m.elements t)) ⟨R, C, es⟩
      = ⟨R, C, l.foldl g es⟩ := by
  induction l with
  | nil => intro R C es; rfl
  | cons t l ih => intro R C es; exact ih R C (g es t)

theorem add_elems (a b : SparseMatrix) :
    add a b
      = .ok ⟨a.rows, a.cols, JsMap.applyAdd (JsMap.copyRaw a.elements) b.elements⟩ := by
  unfold add
  exact congrArg Except.ok
    (foldl_lift
      (fun es (kv : (Nat × Nat) × Int) =>
        JsMap.setv es kv.1 (JsMap.getv es kv.1 + kv.2))
      b.elements a.rows a.cols (JsMap.copyRaw a.elements))

theorem subtract_elems (a b : SparseMatrix) :
    subtract a b
      = .ok ⟨a.rows, a.cols, JsMap.applySub (JsMap.copyRaw a.elements) b.elements⟩ := by
  unfold subtract
  exact congrArg Except.ok
    (foldl_lift
      (fun es (kv : (Nat × Nat) × Int) =>
        JsMap.setv es kv.1 (JsMap.getv es kv.1 - kv.2))
      b.elements a.rows a.cols (JsMap.copyRaw a.elements))

theorem mulInner_cons (kv1 kv2 : (Nat × Nat) × Int)
    (bs es : List ((Nat × Nat) × Int)) :
    mulInner kv1 (kv2 :: bs) es
      = mulInner kv1 bs
          (if kv1.1.2 = kv2.1.1 then
            JsMap.setv es (kv1.1.1, kv2.1.2)
              (JsMap.getv es (kv1.1.1, kv2.1.2) + kv1.2 * kv2.2)
          else es) := rfl

theorem mulInner_lift (kv1 : (Nat × Nat) × Int) (bs : List ((Nat × Nat) × Int)) :
    ∀ (m : SparseMatrix),
    bs.foldl (fun res2 kv2 =>
        if kv1.1.2 = kv2.1.1 then
          setElement res2 kv1.1.1 kv2.1.2
            (getElement res2 kv1.1.1 kv2.1.2 + kv1.2 * kv2.2)
        else res2) m
      = ⟨m.rows, m.cols, mulInner kv1 bs m.elements⟩ := by
  induction bs with
  | nil => intro m; rfl
  | cons kv2 bs ih =>
    intro m
    rw [List.foldl_cons, mulInner_cons]
    by_cases h : kv1.1.2 = kv2.1.1
    · rw [if_pos h, if_pos h]
      exact ih _
    · rw [if_neg h, if_neg h]
      exact ih m

theorem multiply_elems (a b : SparseMatrix) (h : a.cols = b.rows) :
    multiply a b = .ok ⟨a.rows, b.cols, mulElems a.elements b.elements⟩ := by
  unfold multiply
  rw [if_neg (by simpa using h)]
  refine congrArg Except.ok ?_
  have lift : ∀ (as : List ((Nat × Nat) × Int)) (m : SparseMatrix),
      as.foldl (fun res kv1 => b.elements.foldl
        (fun res2 kv2 =>
          if kv1.1.2 = kv2.1.1 then
            setElement res2 kv1.1.1 kv2.1.2
              (getElement res2 kv1.1.1 kv2.1.2 + kv1.2 * kv2.2)
          else res2) res) m
        = ⟨m.rows, m.cols, as.foldl (fun es kv1 => mulInner kv1 b.elements es) m.elements⟩ := by
    intro as
    induction as with
    | nil => intro m; rfl
    | cons kv1 as ih =>
      intro m
      rw [List.foldl_cons, mulInner_lift kv1 b.elements m]
      exact ih _
  exact lift a.elements ⟨a.rows, b.cols, []⟩

end M1

/-! ## The multiply algebra of src/index.js -/

namespace M1

theorem mulContribs_cons (kv1 kv2 : (Nat × Nat) × Int)
    (bs : List ((Nat × Nat) × Int)) :
    mulContribs kv1 (kv2 :: bs)
      = if kv1.1.2 = kv2.1.1
        then ((kv1.1.1, kv2.1.2), kv1.2 * kv2.2) :: mulContribs kv1 bs
        else mulContribs kv1 bs := by
  unfold mulContribs
  by_cases h : kv1.1.2 = kv2.1.1
  · rw [if_pos h]
    exact List.filterMap_cons_some (by simp [h])
  · rw [if_neg h]
    exact List.filterMap_cons_none (by simp [h])

theorem mulInner_eq_applyAdd (kv1 : (Nat × Nat) × Int)
    (bs : List ((Nat × Nat) × Int)) :
    ∀ es, mulInner kv1 bs es = JsMap.applyAdd es (mulContribs kv1 bs) := by
  induction bs with
  | nil => intro es; rfl
  | cons kv2 bs ih =>
    intro es
    rw [mulInner_cons, mulContribs_cons]
    by_cases h : kv1.1.2 = kv2.1.1
    · rw [if_pos h, if_pos h, ih, JsMap.applyAdd_cons]
    · rw [if_neg h, if_neg h, ih]

theorem allContribs_cons (kv1 : (Nat × Nat) × Int)
    (as bs : List ((Nat × Nat) × Int)) :
    allContribs (kv1 :: as) bs = mulContribs kv1 bs ++ allContribs as bs := rfl

theorem mulElems_eq_applyAdd (as bs : List ((Nat × Nat) × Int)) :
    mulElems as bs = JsMap.applyAdd [] (allContribs as bs) := by
  suffices h : ∀ es, as.foldl (fun es kv1 => mulInner kv1 bs es) es
      = JsMap.applyAdd es (allContribs as bs) from h []
  induction as with
  | nil => intro es; rfl
  | cons kv1 as ih =>
    intro es
    rw [List.foldl_cons, ih, allContribs_cons, JsMap.applyAdd_append,
      mulInner_eq_applyAdd]

theorem contribAt_mulContribs (kv1 : (Nat × Nat) × Int)
    (bs : List ((Nat × Nat) × Int)) (i j : Nat) :
    JsMap.contribAt (mulContribs kv1 bs) (i, j)
      = if kv1.1.1 = i then kv1.2 * JsMap.contribAt bs (kv1.1.2, j) else 0 := by
  induction bs with
  | nil =>
    by_cases hi : kv1.1.1 = i <;> simp [mulContribs, hi]
  | cons kv2 bs ih =>
    rw [mulContribs_cons]
    by_cases h : kv1.1.2 = kv2.1.1
    · rw [if_pos h, JsMap.contribAt_cons_mk, ih, JsMap.contribAt_cons]
      by_cases hi : kv1.1.1 = i
      · by_cases hj : kv2.1.2 = j
        · have hL : ((kv1.1.1, kv2.1.2) : Nat × Nat) = (i, j) := by rw [hi, hj]
          have hR : kv2.1 = (kv1.1.2, j) := by rw [h, ← hj]
          rw [if_pos hL, if_pos hi, if_pos hi, if_pos hR]
          ring
        · have hL : ((kv1.1.1, kv2.1.2) : Nat × Nat) ≠ (i, j) := by
            intro he
            exact hj (congrArg Prod.snd he)
          have hR : kv2.1 ≠ (kv1.1.2, j) := by
            intro he
            exact hj (congrArg Prod.snd he)
          rw [if_neg hL, if_pos hi, if_pos hi, if_neg hR]
      · have hL : ((kv1.1.1, kv2.1.2) : Nat × Nat) ≠ (i, j) := by
          intro he
          exact hi (congrArg Prod.fst he)
        rw [if_neg hL, if_neg hi, if_neg hi]
    · rw [if_neg h, ih, JsMap.contribAt_cons]
      have hR : kv2.1 ≠ (kv1.1.2, j) := by
        intro he
        exact h ((congrArg Prod.fst he).symm)
      rw [if_neg hR]

theorem contribAt_allContribs (bs : List ((Nat × Nat) × Int)) (n i j : Nat) :
    ∀ as : List ((Nat × Nat) × Int), (JsMap.keys as).Nodup →
      (∀ kv ∈ as, kv.1.2 < n) →
      JsMap.contribAt (allContribs as bs) (i, j)
        = ∑ k ∈ Finset.range n, JsMap.getv as (i, k) * JsMap.contribAt bs (k, j) := by
  intro as
  induction as with
  | nil =>
    intro _ _
    simp [allContribs]
  | cons kv1 as ih =>
    intro hn hb
    rw [JsMap.keys, List.map_cons, List.nodup_cons] at hn
    rw [allContribs_cons, JsMap.contribAt_append, contribAt_mulContribs,
      ih hn.2 (fun kv hkv => hb kv (List.mem_cons_of_mem kv1 hkv))]
    by_cases hi : kv1.1.1 = i
    · rw [if_pos hi]
      have hk0 : kv1.1.2 ∈ Finset.range n :=
        Finset.mem_range.mpr (hb kv1 (List.mem_cons_self kv1 as))
      have hz : JsMap.getv as (i, kv1.1.2) = 0 := by
        apply JsMap.getv_eq_zero_of_not_mem
        intro hmem
        apply hn.1
        have he : kv1.1 = (i, kv1.1.2) := by rw [← hi]
        rw [he]
        exact hmem
      have hsum : ∀ k ∈ Finset.range n,
          JsMap.getv (kv1 :: as) (i, k) * JsMap.contribAt bs (k, j)
            = JsMap.getv as (i, k) * JsMap.contribAt bs (k, j)
              + (if k = kv1.1.2
                then kv1.2 * JsMap.contribAt bs (kv1.1.2, j) else 0) := by
        intro k _
        rw [JsMap.getv_cons]
        by_cases hk : k = kv1.1.2
        · subst hk
          rw [if_pos (show kv1.1 = (i, kv1.1.2) by rw [← hi]), if_pos rfl, hz]
          ring
        · rw [if_neg (fun he => hk ((congrArg Prod.snd he).symm)), if_neg hk]
          ring
      rw [Finset.sum_congr rfl hsum, Finset.sum_add_distrib,
        Finset.sum_ite_eq' (Finset.range n) kv1.1.2
          (fun _ => kv1.2 * JsMap.contribAt bs (kv1.1.2, j)),
        if_pos hk0]
      ring
    · rw [if_neg hi, zero_add]
      apply Finset.sum_congr rfl
      intro k _
      rw [JsMap.getv_cons, if_neg (fun he => hi (congrArg Prod.fst he))]

theorem getv_mulElems (as bs : List ((Nat × Nat) × Int)) (n i j : Nat)
    (hna : (JsMap.keys as).Nodup) (hbnd : ∀ kv ∈ as, kv.1.2 < n)
    (hnb : (JsMap.keys bs).Nodup) :
    JsMap.getv (mulElems as bs) (i, j)
      = ∑ k ∈ Finset.range n, JsMap.getv as (i, k) * JsMap.getv bs (k, j) := by
  rw [mulElems_eq_applyAdd, JsMap.getv_applyAdd (by simp [JsMap.keys]),
    JsMap.getv_nil, zero_add, contribAt_allContribs bs n i j as hna hbnd]
  apply Finset.sum_congr rfl
  intro k _
  rw [JsMap.contribAt_eq_getv hnb]

theorem Wf_mulElems (as bs : List ((Nat × Nat) × Int)) :
    JsMap.Wf (mulElems as bs) := by
  rw [mulElems_eq_applyAdd]
  exact JsMap.Wf_nil.applyAdd _

theorem mem_allContribs {as bs : List ((Nat × Nat) × Int)} {c : (Nat × Nat) × Int}
    (h : c ∈ allContribs as bs) :
    ∃ kv1 ∈ as, ∃ kv2 ∈ bs, kv1.1.2 = kv2.1.1
      ∧ c = ((kv1.1.1, kv2.1.2), kv1.2 * kv2.2) := by
  induction as with
  | nil => simp [allContribs] at h
  | cons kv1 as ih =>
    rw [allContribs_cons, List.mem_append] at h
    rcases h with h | h
    · unfold mulContribs at h
      rw [List.mem_filterMap] at h
      obtain ⟨kv2, hkv2, hc⟩ := h
      by_cases hcond : kv1.1.2 = kv2.1.1
      · rw [if_pos hcond] at hc
        exact ⟨kv1, List.mem_cons_self kv1 as, kv2, hkv2, hcond,
          (Option.some.inj hc).symm⟩
      · rw [if_neg hcond] at hc
        simp at hc
    · obtain ⟨kv1', h1, kv2, h2, hcond, hc⟩ := ih h
      exact ⟨kv1', List.mem_cons_of_mem kv1 h1, kv2, h2, hcond, hc⟩

theorem mem_keys_mulElems {as bs : List ((Nat × Nat) × Int)} {p : Nat × Nat}
    (h : p ∈ JsMap.keys (mulElems as bs)) :
    (∃ kv1 ∈ as, kv1.1.1 = p.1) ∧ (∃ kv2 ∈ bs, kv2.1.2 = p.2) := by
  rw [mulElems_eq_applyAdd] at h
  rcases JsMap.mem_keys_applyAdd h with h | h
  · simp [JsMap.keys] at h
  · rw [List.mem_map] at h
    obtain ⟨c, hc, hp⟩ := h
    obtain ⟨kv1, h1, kv2, h2, _, hceq⟩ := mem_allContribs hc
    subst hceq
    have hp2 : ((kv1.1.1, kv2.1.2) : Nat × Nat) = p := hp
    refine ⟨⟨kv1, h1, ?_⟩, ⟨kv2, h2, ?_⟩⟩
    · rw [← hp2]
    · rw [← hp2]

theorem add_getv (a b : SparseMatrix) (ha : (JsMap.keys a.elements).Nodup)
    (hb : (JsMap.keys b.elements).Nodup) (q : Nat × Nat) :
    JsMap.getv (JsMap.applyAdd (JsMap.copyRaw a.elements) b.elements) q
      = JsMap.getv a.elements q + JsMap.getv b.elements q := by
  rw [JsMap.copyRaw_eq ha, JsMap.getv_applyAdd ha, JsMap.contribAt_eq_getv hb]

theorem subtract_getv (a b : SparseMatrix) (ha : (JsMap.keys a.elements).Nodup)
    (hb : (JsMap.keys b.elements).Nodup) (q : Nat × Nat) :
    JsMap.getv (JsMap.applySub (JsMap.copyRaw a.elements) b.elements) q
      = JsMap.getv a.elements q - JsMap.getv b.elements q := by
  rw [JsMap.copyRaw_eq ha, JsMap.getv_applySub ha, JsMap.contribAt_eq_getv hb]

end M1

/-! ## Lemmas about the src/unnamed/part_000 implementation -/

namespace M2

theorem foldl_liftE {α : Type} (g : Nat → List (Nat × Int) → α → List (Nat × Int))
    (l : List α) : ∀ (R C : Nat) (es : List (Nat × Int)),
    l.foldl (fun m t => SparseMap.mk m.rows m.cols (g m.cols m.elements t)) ⟨R, C, es⟩
      = ⟨R, C, l.foldl (g C) es⟩ := by
  induction l with
  | nil => intro R C es; rfl
  | cons t l ih => intro R C es; exact ih R C (g C es t)

theorem foldl_decode (s : List (Nat × Int) → Nat → Int → List (Nat × Int)) (C : Nat) :
    ∀ (l : List (Nat × Int)) (es : List (Nat × Int)),
      (l.map (fun kv => (kv.1 / C, kv.1 % C, kv.2))).foldl
        (fun es2 t => s es2 (t.1 * C + t.2.1) t.2.2) es
      = l.foldl (fun es2 kv => s es2 kv.1 kv.2) es := by
  intro l
  induction l with
  | nil => intro es; rfl
  | cons kv l ih =>
    intro es
    rw [List.map_cons, List.foldl_cons, List.foldl_cons]
    show (l.map (fun kv => (kv.1 / C, kv.1 % C, kv.2))).foldl
        (fun es2 t => s es2 (t.1 * C + t.2.1) t.2.2)
        (s es (kv.1 / C * C + kv.1 % C) kv.2)
      = l.foldl (fun es2 kv => s es2 kv.1 kv.2) (s es kv.1 kv.2)
    rw [Nat.div_add_mod']
    exact ih _

theorem foldl_decode2 (s : List (Nat × Int) → Nat → Int → List (Nat × Int))
    (C D : Nat) (h : C = D) :
    ∀ (l : List (Nat × Int)) (es : List (Nat × Int)),
      (l.map (fun kv => (kv.1 / C, kv.1 % C, kv.2))).foldl
        (fun es2 t => s es2 (t.1 * D + t.2.1) t.2.2) es
      = l.foldl (fun es2 kv => s es2 kv.1 kv.2) es := by
  subst h
  exact foldl_decode s C

theorem add_elemsE (a b : SparseMap) (hc : a.cols = b.cols) :
    a.add b = .ok ⟨a.rows, a.cols,
      JsMap.applyAdd (JsMap.copySet a.elements) b.elements⟩ := by
  unfold SparseMap.add
  refine congrArg Except.ok ?_
  have h1 : a.triples.foldl (fun res t => res.set t.1 t.2.1 t.2.2)
      (⟨a.rows, a.cols, []⟩ : SparseMap)
      = ⟨a.rows, a.cols, JsMap.copySet a.elements⟩ := by
    refine Eq.trans (foldl_liftE
      (fun C es (t : Nat × Nat × Int) => JsMap.setv es (t.1 * C + t.2.1) t.2.2)
      a.triples a.rows a.cols []) ?_
    refine congrArg (SparseMap.mk a.rows a.cols) ?_
    exact foldl_decode2 (fun es k v => JsMap.setv es k v) a.cols a.cols rfl
      a.elements []
  rw [h1]
  refine Eq.trans (foldl_liftE
    (fun C es (t : Nat × Nat × Int) =>
      JsMap.setv es (t.1 * C + t.2.1) (JsMap.getv es (t.1 * C + t.2.1) + t.2.2))
    b.triples a.rows a.cols (JsMap.copySet a.elements)) ?_
  refine congrArg (SparseMap.mk a.rows a.cols) ?_
  exact foldl_decode2 (fun es k v => JsMap.setv es k (JsMap.getv es k + v))
    b.cols a.cols hc.symm b.elements (JsMap.copySet a.elements)

theorem subtract_elemsE (a b : SparseMap) (hc : a.cols = b.cols) :
    a.subtract b = .ok ⟨a.rows, a.cols,
      JsMap.applySub (JsMap.copySet a.elements) b.elements⟩ := by
  unfold SparseMap.subtract
  refine congrArg Except.ok ?_
  have h1 : a.triples.foldl (fun res t => res.set t.1 t.2.1 t.2.2)
      (⟨a.rows, a.cols, []⟩ : SparseMap)
      = ⟨a.rows, a.cols, JsMap.copySet a.elements⟩ := by
    refine Eq.trans (foldl_liftE
      (fun C es (t : Nat × Nat × Int) => JsMap.setv es (t.1 * C + t.2.1) t.2.2)
      a.triples a.rows a.cols []) ?_
    refine congrArg (SparseMap.mk a.rows a.cols) ?_
    exact foldl_decode2 (fun es k v => JsMap.setv es k v) a.cols a.cols rfl
      a.elements []
  rw [h1]
  refine Eq.trans (foldl_liftE
    (fun C es (t : Nat × Nat × Int) =>
      JsMap.setv es (t.1 * C + t.2.1) (JsMap.getv es (t.1 * C + t.2.1) - t.2.2))
    b.triples a.rows a.cols (JsMap.copySet a.elements)) ?_
  refine congrArg (SparseMap.mk a.rows a.cols) ?_
  exact foldl_decode2 (fun es k v => JsMap.setv es k (JsMap.getv es k - v))
    b.cols a.cols hc.symm b.elements (JsMap.copySet a.elements)

theorem mulInnerE_cons (C : Nat) (t1 t2 : Nat × Nat × Int)
    (bts : List (Nat × Nat × Int)) (es : List (Nat × Int)) :
    mulInnerE C t1 (t2 :: bts) es
      = mulInnerE C t1 bts
          (if t1.2.1 = t2.1 then
            JsMap.setv es (t1.1 * C + t2.2.1)
              (JsMap.getv es (t1.1 * C + t2.2.1) + t1.2.2 * t2.2.2)
          else es) := rfl

theorem mulInner_liftE (t1 : Nat × Nat × Int) (bts : List (Nat × Nat × Int)) :
    ∀ (m : SparseMap),
    bts.foldl (fun res2 t2 =>
        if t1.2.1 = t2.1 then
          res2.set t1.1 t2.2.1 (res2.get t1.1 t2.2.1 + t1.2.2 * t2.2.2)
        else res2) m
      = ⟨m.rows, m.cols, mulInnerE m.cols t1 bts m.elements⟩ := by
  induction bts with
  | nil => intro m; rfl
  | cons t2 bts ih =>
    intro m
    rw [List.foldl_cons, mulInnerE_cons]
    by_cases h : t1.2.1 = t2.1
    · rw [if_pos h, if_pos h]
      exact ih _
    · rw [if_neg h, if_neg h]
      exact ih m

theorem multiply_elemsE (a b : SparseMap) (h : a.cols = b.rows) :
    a.multiply b = .ok ⟨a.rows, b.cols, mulElemsE b.cols a.triples b.triples⟩ := by
  unfold SparseMap.multiply
  rw [if_neg (by simpa using h)]
  refine congrArg Except.ok ?_
  have lift : ∀ (ats : List (Nat × Nat × Int)) (m : SparseMap),
      ats.foldl (fun res t1 => b.triples.foldl
        (fun res2 t2 =>
          if t1.2.1 = t2.1 then
            res2.set t1.1 t2.2.1 (res2.get t1.1 t2.2.1 + t1.2.2 * t2.2.2)
          else res2) res) m
        = ⟨m.rows, m.cols,
            ats.foldl (fun es t1 => mulInnerE m.cols t1 b.triples es) m.elements⟩ := by
    intro ats
    induction ats with
    | nil => intro m; rfl
    | cons t1 ats ih =>
      intro m
      rw [List.foldl_cons, mulInner_liftE t1 b.triples m]
      exact ih _
  exact lift a.triples ⟨a.rows, b.cols, []⟩

end M2

/-! ## The simulation between the numeric-keyed and the pair-keyed store -/

namespace JsMap

variable {κ : Type} [DecidableEq κ]

theorem mset_cons (kv : κ × Int) (m : List (κ × Int)) (k : κ) (v : Int) :
    mset (kv :: m) k v = if kv.1 = k then (k, v) :: m else kv :: mset m k v := rfl

theorem mdel_cons (kv : κ × Int) (m : List (κ × Int)) (k : κ) :
    mdel (kv :: m) k = if kv.1 = k then m else kv :: mdel m k := rfl

theorem mem_setv {m : List (κ × Int)} {k : κ} {v : Int} {kv : κ × Int}
    (h : kv ∈ setv m k v) : kv.1 = k ∨ kv ∈ m := by
  unfold setv at h
  by_cases hv : v ≠ 0
  · rw [if_pos hv] at h
    rcases mem_mset m k v h with h | h
    · exact Or.inl (by rw [h])
    · exact Or.inr h
  · rw [if_neg hv] at h
    exact Or.inr ((mdel_sublist m k).mem h)

end JsMap

namespace M1

theorem mem_keys_mulInner {kv1 : (Nat × Nat) × Int}
    {bs es : List ((Nat × Nat) × Int)} {p : Nat × Nat}
    (h : p ∈ JsMap.keys (mulInner kv1 bs es)) :
    p ∈ JsMap.keys es ∨ ∃ kv2 ∈ bs, p = (kv1.1.1, kv2.1.2) := by
  rw [mulInner_eq_applyAdd] at h
  rcases JsMap.mem_keys_applyAdd h with h | h
  · exact Or.inl h
  · right
    rw [List.mem_map] at h
    obtain ⟨c, hc, hp⟩ := h
    unfold mulContribs at hc
    rw [List.mem_filterMap] at hc
    obtain ⟨kv2, hkv2, hcc⟩ := hc
    by_cases hcond : kv1.1.2 = kv2.1.1
    · rw [if_pos hcond] at hcc
      refine ⟨kv2, hkv2, ?_⟩
      rw [← hp, ← Option.some.inj hcc]
    · rw [if_neg hcond] at hcc
      simp at hcc

end M1

namespace M2

theorem enc_inj (C : Nat) {r1 c1 r2 c2 : Nat} (h1 : c1 < C) (h2 : c2 < C)
    (h : r1 * C + c1 = r2 * C + c2) : r1 = r2 ∧ c1 = c2 := by
  have hc : c1 = c2 := by
    have hm : (r1 * C + c1) % C = (r2 * C + c2) % C := by rw [h]
    rwa [Nat.mul_add_mod', Nat.mul_add_mod', Nat.mod_eq_of_lt h1,
      Nat.mod_eq_of_lt h2] at hm
  subst hc
  have hC : 0 < C := Nat.lt_of_le_of_lt (Nat.zero_le c1) h1
  have hr : r1 = r2 := by
    have h3 : r1 * C = r2 * C := by omega
    exact Nat.eq_of_mul_eq_mul_right hC h3
  exact ⟨hr, rfl⟩

theorem getv_map_encE (C : Nat) (es : List ((Nat × Nat) × Int))
    (hb : ∀ p ∈ JsMap.keys es, p.2 < C) (r c0 : Nat) (hc : c0 < C) :
    JsMap.getv (es.map (encE C)) (r * C + c0) = JsMap.getv es (r, c0) := by
  induction es with
  | nil => rfl
  | cons kv es ih =>
    have hkv : kv.1.2 < C := hb kv.1 (List.mem_cons_self kv.1 (JsMap.keys es))
    rw [List.map_cons, JsMap.getv_cons, JsMap.getv_cons]
    by_cases h : kv.1 = (r, c0)
    · have he : (encE C kv).1 = r * C + c0 := by
        show kv.1.1 * C + kv.1.2 = r * C + c0
        rw [h]
      rw [if_pos he, if_pos h]
      rfl
    · have he : ¬((encE C kv).1 = r * C + c0) := by
        intro hew
        obtain ⟨h1, h2⟩ :=
          enc_inj C hkv hc (show kv.1.1 * C + kv.1.2 = r * C + c0 from hew)
        exact h (by rw [← h1, ← h2])
      rw [if_neg he, if_neg h]
      exact ih (fun p hp => hb p (List.mem_cons_of_mem kv.1 hp))

theorem mset_map_encE (C : Nat) (es : List ((Nat × Nat) × Int))
    (hb : ∀ p ∈ JsMap.keys es, p.2 < C) (r c0 : Nat) (hc : c0 < C) (v : Int) :
    JsMap.mset (es.map (encE C)) (r * C + c0) v
      = (JsMap.mset es (r, c0) v).map (encE C) := by
  induction es with
  | nil => rfl
  | cons kv es ih =>
    have hkv : kv.1.2 < C := hb kv.1 (List.mem_cons_self kv.1 (JsMap.keys es))
    rw [List.map_cons, JsMap.mset_cons, JsMap.mset_cons]
    by_cases h : kv.1 = (r, c0)
    · have he : (encE C kv).1 = r * C + c0 := by
        show kv.1.1 * C + kv.1.2 = r * C + c0
        rw [h]
      rw [if_pos he, if_pos h, List.map_cons]
      rfl
    · have he : ¬((encE C kv).1 = r * C + c0) := by
        intro hew
        obtain ⟨h1, h2⟩ :=
          enc_inj C hkv hc (show kv.1.1 * C + kv.1.2 = r * C + c0 from hew)
        exact h (by rw [← h1, ← h2])
      rw [if_neg he, if_neg h, List.map_cons,
        ih (fun p hp => hb p (List.mem_cons_of_mem kv.1 hp))]

theorem mdel_map_encE (C : Nat) (es : List ((Nat × Nat) × Int))
    (hb : ∀ p ∈ JsMap.keys es, p.2 < C) (r c0 : Nat) (hc : c0 < C) :
    JsMap.mdel (es.map (encE C)) (r * C + c0)
      = (JsMap.mdel es (r, c0)).map (encE C) := by
  induction es with
  | nil => rfl
  | cons kv es ih =>
    have hkv : kv.1.2 < C := hb kv.1 (List.mem_cons_self kv.1 (JsMap.keys es))
    rw [List.map_cons, JsMap.mdel_cons, JsMap.mdel_cons]
    by_cases h : kv.1 = (r, c0)
    · have he : (encE C kv).1 = r * C + c0 := by
        show kv.1.1 * C + kv.1.2 = r * C + c0
        rw [h]
      rw [if_pos he, if_pos h]
    · have he : ¬((encE C kv).1 = r * C + c0) := by
        intro hew
        obtain ⟨h1, h2⟩ :=
          enc_inj C hkv hc (show kv.1.1 * C + kv.1.2 = r * C + c0 from hew)
        exact h (by rw [← h1, ← h2])
      rw [if_neg he, if_neg h, List.map_cons,
        ih (fun p hp => hb p (List.mem_cons_of_mem kv.1 hp))]

theorem setv_map_encE (C : Nat) (es : List ((Nat × Nat) × Int))
    (hb : ∀ p ∈ JsMap.keys es, p.2 < C) (r c0 : Nat) (hc : c0 < C) (v : Int) :
    JsMap.setv (es.map (encE C)) (r * C + c0) v
      = (JsMap.setv es (r, c0) v).map (encE C) := by
  unfold JsMap.setv
  by_cases hv : v ≠ 0
  · rw [if_pos hv, if_pos hv]
    exact mset_map_encE C es hb r c0 hc v
  · rw [if_neg hv, if_neg hv]
    exact mdel_map_encE C es hb r c0 hc

theorem keys_bound_setv {C : Nat} {es : List ((Nat × Nat) × Int)}
    (hb : ∀ p ∈ JsMap.keys es, p.2 < C) {r c0 : Nat} (hc : c0 < C) (v : Int) :
    ∀ p ∈ JsMap.keys (JsMap.setv es (r, c0) v), p.2 < C := by
  intro p hp
  rcases JsMap.mem_keys_setv hp with h | h
  · rw [h]; exact hc
  · exact hb p h

theorem keys_bound_mulInner {C : Nat} {kv1 : (Nat × Nat) × Int}
    {bs es : List ((Nat × Nat) × Int)}
    (hes : ∀ p ∈ JsMap.keys es, p.2 < C) (hbs : ∀ kv ∈ bs, kv.1.2 < C) :
    ∀ p ∈ JsMap.keys (M1.mulInner kv1 bs es), p.2 < C := by
  intro p hp
  rcases M1.mem_keys_mulInner hp with h | ⟨kv2, hkv2, hpe⟩
  · exact hes p h
  · rw [hpe]
    exact hbs kv2 hkv2

theorem mulInnerE_sim (C : Nat) (t1 : Nat × Nat × Int) :
    ∀ (bts : List (Nat × Nat × Int)), (∀ t ∈ bts, t.2.1 < C) →
    ∀ (es1 : List ((Nat × Nat) × Int)), (∀ p ∈ JsMap.keys es1, p.2 < C) →
    mulInnerE C t1 bts (es1.map (encE C))
      = (M1.mulInner (toPair t1) (bts.map toPair) es1).map (encE C) := by
  intro bts
  induction bts with
  | nil => intro _ es1 _; rfl
  | cons t2 bts ih =>
    intro hbts es1 hes
    have hcc : t2.2.1 < C := hbts t2 (List.mem_cons_self t2 bts)
    rw [mulInnerE_cons, List.map_cons, M1.mulInner_cons]
    by_cases h : t1.2.1 = t2.1
    · rw [if_pos h, if_pos (show (toPair t1).1.2 = (toPair t2).1.1 from h)]
      rw [getv_map_encE C es1 hes t1.1 t2.2.1 hcc,
        setv_map_encE C es1 hes t1.1 t2.2.1 hcc _]
      exact ih (fun t ht => hbts t (List.mem_cons_of_mem t2 ht)) _
        (keys_bound_setv hes hcc _)
    · rw [if_neg h, if_neg (show ¬((toPair t1).1.2 = (toPair t2).1.1) from h)]
      exact ih (fun t ht => hbts t (List.mem_cons_of_mem t2 ht)) es1 hes

theorem mulElemsE_sim (C : Nat) (ats bts : List (Nat × Nat × Int))
    (hbts : ∀ t ∈ bts, t.2.1 < C) :
    mulElemsE C ats bts
      = (M1.mulElems (ats.map toPair) (bts.map toPair)).map (encE C) := by
  have hbs : ∀ kv ∈ bts.map toPair, kv.1.2 < C := by
    intro kv hkv
    rw [List.mem_map] at hkv
    obtain ⟨t, ht, rfl⟩ := hkv
    exact hbts t ht
  suffices h : ∀ (l : List (Nat × Nat × Int)) (es1 : List ((Nat × Nat) × Int)),
      (∀ p ∈ JsMap.keys es1, p.2 < C) →
      l.foldl (fun es t1 => mulInnerE C t1 bts es) (es1.map (encE C))
        = ((l.map toPair).foldl
            (fun es kv1 => M1.mulInner kv1 (bts.map toPair) es) es1).map (encE C) by
    exact h ats [] (by simp [JsMap.keys])
  intro l
  induction l with
  | nil => intro es1 _; rfl
  | cons t1 l ih =>
    intro es1 hes
    rw [List.foldl_cons, List.map_cons, List.foldl_cons,
      mulInnerE_sim C t1 bts hbts es1 hes]
    exact ih _ (keys_bound_mulInner hes hbs)

end M2

/-! ## Decoding lemmas for the numeric-keyed store -/

namespace M2

theorem enc_dec (m : SparseMap) :
    (m.elements.map (decE m.cols)).map (encE m.cols) = m.elements := by
  rw [List.map_map]
  have hfun : encE m.cols ∘ decE m.cols = id := by
    funext kv
    show (kv.1 / m.cols * m.cols + kv.1 % m.cols, kv.2) = kv
    rw [Nat.div_add_mod']
  rw [hfun, List.map_id]

theorem dec_key_inj (c : Nat) {k1 k2 : Nat}
    (h : ((k1 / c, k1 % c) : Nat × Nat) = (k2 / c, k2 % c)) : k1 = k2 := by
  have h1 : k1 / c = k2 / c := congrArg Prod.fst h
  have h2 : k1 % c = k2 % c := congrArg Prod.snd h
  calc k1 = k1 / c * c + k1 % c := (Nat.div_add_mod' k1 c).symm
    _ = k2 / c * c + k2 % c := by rw [h1, h2]
    _ = k2 := Nat.div_add_mod' k2 c

theorem cols_pos_of_mem {m : SparseMap} (hw : m.Wf) {kv : Nat × Int}
    (h : kv ∈ m.elements) : 0 < m.cols := by
  have hb := hw.2 kv h
  by_contra hc
  push_neg at hc
  have hc0 : m.cols = 0 := Nat.le_zero.mp hc
  rw [hc0, Nat.mul_zero] at hb
  exact absurd hb (Nat.not_lt_zero _)

theorem decoded_nodup (m : SparseMap) (hw : m.Wf) :
    (JsMap.keys (m.elements.map (decE m.cols))).Nodup := by
  have hk : JsMap.keys (m.elements.map (decE m.cols))
      = (JsMap.keys m.elements).map (fun k => ((k / m.cols, k % m.cols) : Nat × Nat)) := by
    unfold JsMap.keys
    rw [List.map_map, List.map_map]
    rfl
  rw [hk]
  exact List.Nodup.map (fun k1 k2 h => dec_key_inj m.cols h) hw.1.1

theorem decoded_values (m : SparseMap) (hw : m.Wf) :
    ∀ kv ∈ m.elements.map (decE m.cols), kv.2 ≠ 0 := by
  intro kv hkv
  rw [List.mem_map] at hkv
  obtain ⟨t, ht, rfl⟩ := hkv
  exact hw.1.2 t ht

theorem decoded_wf (m : SparseMap) (hw : m.Wf) :
    JsMap.Wf (m.elements.map (decE m.cols)) :=
  ⟨decoded_nodup m hw, decoded_values m hw⟩

theorem decoded_bound_col (m : SparseMap) (hw : m.Wf) :
    ∀ kv ∈ m.elements.map (decE m.cols), kv.1.2 < m.cols := by
  intro kv hkv
  rw [List.mem_map] at hkv
  obtain ⟨t, ht, rfl⟩ := hkv
  exact Nat.mod_lt _ (cols_pos_of_mem hw ht)

theorem decoded_bound_row (m : SparseMap) (hw : m.Wf) :
    ∀ kv ∈ m.elements.map (decE m.cols), kv.1.1 < m.rows := by
  intro kv hkv
  rw [List.mem_map] at hkv
  obtain ⟨t, ht, rfl⟩ := hkv
  have hb := hw.2 t ht
  exact Nat.div_lt_of_lt_mul (by rw [Nat.mul_comm]; exact hb)

theorem decoded_keys_bound (m : SparseMap) (hw : m.Wf) :
    ∀ p ∈ JsMap.keys (m.elements.map (decE m.cols)), p.2 < m.cols := by
  intro p hp
  unfold JsMap.keys at hp
  rw [List.map_map, List.mem_map] at hp
  obtain ⟨t, ht, rfl⟩ := hp
  exact Nat.mod_lt _ (cols_pos_of_mem hw ht)

theorem get_eq_decoded (m : SparseMap) (hw : m.Wf) (r c0 : Nat)
    (hc : c0 < m.cols) :
    m.get r c0 = JsMap.getv (m.elements.map (decE m.cols)) (r, c0) := by
  conv_lhs => rw [SparseMap.get, SparseMap.getKey, ← enc_dec m]
  exact getv_map_encE m.cols _ (decoded_keys_bound m hw) r c0 hc

theorem triples_toPair (m : SparseMap) :
    m.triples.map toPair = m.elements.map (decE m.cols) := by
  rw [SparseMap.triples, List.map_map]
  rfl

theorem triples_col_bound (m : SparseMap) (hw : m.Wf) :
    ∀ t ∈ m.triples, t.2.1 < m.cols := by
  intro t ht
  rw [SparseMap.triples, List.mem_map] at ht
  obtain ⟨kv, hkv, rfl⟩ := ht
  exact Nat.mod_lt _ (cols_pos_of_mem hw hkv)

theorem dec_enc_of_lt (C : Nat) {kv : (Nat × Nat) × Int} (h : kv.1.2 < C) :
    ((encE C kv).1 / C, (encE C kv).1 % C, (encE C kv).2)
      = (kv.1.1, kv.1.2, kv.2) := by
  have hC : 0 < C := Nat.lt_of_le_of_lt (Nat.zero_le _) h
  show ((kv.1.1 * C + kv.1.2) / C, (kv.1.1 * C + kv.1.2) % C, kv.2)
    = (kv.1.1, kv.1.2, kv.2)
  rw [Nat.add_comm (kv.1.1 * C) kv.1.2, Nat.add_mul_div_right kv.1.2 kv.1.1 hC,
    Nat.div_eq_of_lt h, Nat.zero_add, Nat.add_mul_mod_self_right,
    Nat.mod_eq_of_lt h]

theorem triples_map_encE (C : Nat) (es : List ((Nat × Nat) × Int))
    (hb : ∀ kv ∈ es, kv.1.2 < C) :
    (es.map (encE C)).map (fun kv => (kv.1 / C, kv.1 % C, kv.2))
      = es.map (fun kv => (kv.1.1, kv.1.2, kv.2)) := by
  rw [List.map_map]
  apply List.map_congr_left
  intro kv hkv
  exact dec_enc_of_lt C (hb kv hkv)

theorem mulElemsE_get (a b : SparseMap) (ha : a.Wf) (hb : b.Wf)
    (i j : Nat) (hj : j < b.cols) :
    JsMap.getv (mulElemsE b.cols a.triples b.triples) (i * b.cols + j)
      = ∑ k ∈ Finset.range a.cols, a.get i k * b.get k j := by
  rw [mulElemsE_sim b.cols a.triples b.triples (triples_col_bound b hb),
    triples_toPair a, triples_toPair b]
  have hkeys : ∀ p ∈ JsMap.keys
      (M1.mulElems (a.elements.map (decE a.cols)) (b.elements.map (decE b.cols))),
      p.2 < b.cols := by
    intro p hp
    obtain ⟨_, ⟨kv2, hkv2, he⟩⟩ := M1.mem_keys_mulElems hp
    rw [← he]
    exact decoded_bound_col b hb kv2 hkv2
  rw [getv_map_encE b.cols _ hkeys i j hj]
  rw [M1.getv_mulElems (a.elements.map (decE a.cols))
    (b.elements.map (decE b.cols)) a.cols i j
    (decoded_nodup a ha) (decoded_bound_col a ha) (decoded_nodup b hb)]
  apply Finset.sum_congr rfl
  intro k hk
  rw [← get_eq_decoded a ha i k (Finset.mem_range.mp hk),
    ← get_eq_decoded b hb k j hj]

theorem mulElemsE_values (a b : SparseMap) (hb2 : b.Wf) :
    ∀ kv ∈ mulElemsE b.cols a.triples b.triples, kv.2 ≠ 0 := by
  rw [mulElemsE_sim b.cols a.triples b.triples (triples_col_bound b hb2),
    triples_toPair a, triples_toPair b]
  intro kv hkv
  rw [List.mem_map] at hkv
  obtain ⟨t, ht, rfl⟩ := hkv
  exact (M1.Wf_mulElems _ _).2 t ht

theorem add_get (a b : SparseMap) (hc : a.cols = b.cols)
    (ha : JsMap.Wf a.elements) (hbn : (JsMap.keys b.elements).Nodup)
    (r c0 : Nat) :
    JsMap.getv (JsMap.applyAdd (JsMap.copySet a.elements) b.elements)
        (r * a.cols + c0)
      = a.get r c0 + b.get r c0 := by
  rw [JsMap.copySet_eq ha, JsMap.getv_applyAdd ha.1, JsMap.contribAt_eq_getv hbn]
  show JsMap.getv a.elements (r * a.cols + c0)
      + JsMap.getv b.elements (r * a.cols + c0)
    = a.get r c0 + b.get r c0
  nth_rewrite 2 [hc]
  rfl

theorem subtract_get (a b : SparseMap) (hc : a.cols = b.cols)
    (ha : JsMap.Wf a.elements) (hbn : (JsMap.keys b.elements).Nodup)
    (r c0 : Nat) :
    JsMap.getv (JsMap.applySub (JsMap.copySet a.elements) b.elements)
        (r * a.cols + c0)
      = a.get r c0 - b.get r c0 := by
  rw [JsMap.copySet_eq ha, JsMap.getv_applySub ha.1, JsMap.contribAt_eq_getv hbn]
  show JsMap.getv a.elements (r * a.cols + c0)
      - JsMap.getv b.elements (r * a.cols + c0)
    = a.get r c0 - b.get r c0
  nth_rewrite 2 [hc]
  rfl

end M2

namespace M1

theorem mem_triples_iff (m : SparseMatrix) (hw : JsMap.Wf m.elements)
    (r c0 : Nat) (v : Int) :
    (r, c0, v) ∈ triples m ↔ getElement m r c0 = v ∧ v ≠ 0 := by
  unfold triples
  rw [List.mem_map]
  constructor
  · rintro ⟨kv, hkv, he⟩
    simp only [Prod.mk.injEq] at he
    have hkve : kv = ((r, c0), v) := by
      rw [← he.1, ← he.2.1, ← he.2.2]
    have hkm : ((r, c0), v) ∈ m.elements := hkve ▸ hkv
    constructor
    · rw [getElement, JsMap.getv, JsMap.mget_of_mem m.elements hw.1 hkm,
        Option.getD_some]
    · exact hw.2 _ hkm
  · rintro ⟨hval, hv⟩
    have hms : JsMap.mget m.elements (r, c0) = some v := by
      rw [getElement, JsMap.getv] at hval
      cases hm : JsMap.mget m.elements (r, c0) with
      | none =>
        rw [hm, Option.getD_none] at hval
        exact absurd hval.symm hv
      | some w =>
        rw [hm, Option.getD_some] at hval
        rw [hval]
    exact ⟨((r, c0), v), JsMap.mget_mem m.elements hms, rfl⟩

end M1

/-! ## Parsing lemmas -/

namespace Parse

theorem parse_insufficient (content : String)
    (h : (linesOf content).length < 3) :
    parseMatrix content = .error .insufficientData := by
  unfold parseMatrix
  rcases hls : linesOf content with _ | ⟨l0, _ | ⟨l1, _ | ⟨l2, rest⟩⟩⟩
  · rfl
  · rfl
  · rfl
  · rw [hls, List.length_cons, List.length_cons, List.length_cons] at h
    omega

theorem parse_wrong_format (content : String) (l0 l1 l2 : List Char)
    (rest : List (List Char)) (hls : linesOf content = l0 :: l1 :: l2 :: rest)
    (h : searchKeyNum rowsPat l0 = none ∨ searchKeyNum colsPat l1 = none) :
    parseMatrix content = .error .wrongFormat := by
  rcases h with h | h
  · rcases hc : searchKeyNum colsPat l1 with _ | c
    · simp [parseMatrix, hls, h, hc]
    · simp [parseMatrix, hls, h, hc]
  · rcases hr : searchKeyNum rowsPat l0 with _ | r
    · simp [parseMatrix, hls, h, hr]
    · simp [parseMatrix, hls, h, hr]

theorem parse_ok (content : String) (l0 l1 l2 : List Char)
    (rest : List (List Char)) (r c : Nat)
    (hls : linesOf content = l0 :: l1 :: l2 :: rest)
    (hr : searchKeyNum rowsPat l0 = some r)
    (hc : searchKeyNum colsPat l1 = some c) :
    parseMatrix content
      = .ok (r, c, (l2 :: rest).filterMap (fun l => elemSearch l)) := by
  simp [parseMatrix, hls, hr, hc]

theorem parse_lines_only (c1 c2 : String) (h : linesOf c1 = linesOf c2) :
    parseMatrix c1 = parseMatrix c2 := by
  unfold parseMatrix
  rw [h]

end Parse

/-! ## Support characterisation of the operation results -/

namespace JsMap

variable {κ : Type} [DecidableEq κ]

theorem addResult_keys_iff {ma mb : List (κ × Int)} (hwa : Wf ma) (hwb : Wf mb)
    (k : κ) :
    k ∈ keys (applyAdd ma mb)
      ↔ (k ∈ keys ma ∨ k ∈ keys mb) ∧ getv ma k + getv mb k ≠ 0 := by
  have hw : Wf (applyAdd ma mb) := hwa.applyAdd mb
  have hval : getv (applyAdd ma mb) k = getv ma k + getv mb k := by
    rw [getv_applyAdd hwa.1, contribAt_eq_getv hwb.1]
  constructor
  · intro hk
    have hnz := (getv_ne_zero_iff hw k).mpr hk
    rw [hval] at hnz
    exact ⟨mem_keys_applyAdd hk, hnz⟩
  · rintro ⟨_, hnz⟩
    exact (getv_ne_zero_iff hw k).mp (by rw [hval]; exact hnz)

theorem subResult_keys_iff {ma mb : List (κ × Int)} (hwa : Wf ma) (hwb : Wf mb)
    (k : κ) :
    k ∈ keys (applySub ma mb)
      ↔ (k ∈ keys ma ∨ k ∈ keys mb) ∧ getv ma k - getv mb k ≠ 0 := by
  have hw : Wf (applySub ma mb) := hwa.applySub mb
  have hval : getv (applySub ma mb) k = getv ma k - getv mb k := by
    rw [getv_applySub hwa.1, contribAt_eq_getv hwb.1]
  constructor
  · intro hk
    have hnz := (getv_ne_zero_iff hw k).mpr hk
    rw [hval] at hnz
    exact ⟨mem_keys_applySub hk, hnz⟩
  · rintro ⟨_, hnz⟩
    exact (getv_ne_zero_iff hw k).mp (by rw [hval]; exact hnz)

end JsMap

namespace M2

theorem triples_row_bound (m : SparseMap) (hw : m.Wf) :
    ∀ t ∈ m.triples, t.1 < m.rows := by
  intro t ht
  rw [SparseMap.triples, List.mem_map] at ht
  obtain ⟨kv, hkv, rfl⟩ := ht
  exact Nat.div_lt_of_lt_mul (by rw [Nat.mul_comm]; exact hw.2 kv hkv)

theorem getKey_decode (m : SparseMap) (r c : Nat) (hc : c < m.cols) :
    m.getKey r c / m.cols = r ∧ m.getKey r c % m.cols = c := by
  have hC : 0 < m.cols := Nat.lt_of_le_of_lt (Nat.zero_le _) hc
  unfold SparseMap.getKey
  constructor
  · rw [Nat.add_comm, Nat.add_mul_div_right c r hC, Nat.div_eq_of_lt hc,
      Nat.zero_add]
  · rw [Nat.add_comm, Nat.add_mul_mod_self_right, Nat.mod_eq_of_lt hc]

theorem getKey_lt {m : SparseMap} {r c : Nat} (hr : r < m.rows)
    (hc : c < m.cols) : m.getKey r c < m.rows * m.cols := by
  unfold SparseMap.getKey
  calc r * m.cols + c < r * m.cols + m.cols := by omega
    _ = (r + 1) * m.cols := by ring
    _ ≤ m.rows * m.cols := Nat.mul_le_mul_right m.cols (Nat.succ_le_of_lt hr)

theorem Built.wf {m : SparseMap} (h : Built m) : m.Wf := by
  induction h with
  | init rows cols => exact ⟨JsMap.Wf_nil, by simp⟩
  | step r c v hb hr hc ih =>
    refine ⟨ih.1.setv _ _, ?_⟩
    intro kv hkv
    rcases JsMap.mem_setv hkv with h1 | h1
    · rw [h1]
      exact getKey_lt hr hc
    · exact ih.2 kv h1

theorem triples_eq_M1 (m : SparseMap) :
    m.triples = M1.triples ⟨m.rows, m.cols, m.elements.map (decE m.cols)⟩ := by
  rw [SparseMap.triples, M1.triples, List.map_map]
  rfl

theorem mem_triples_iffE (m : SparseMap) (hw : m.Wf) (r c0 : Nat) (v : Int) :
    (r, c0, v) ∈ m.triples
      ↔ r < m.rows ∧ c0 < m.cols ∧ m.get r c0 = v ∧ v ≠ 0 := by
  constructor
  · intro ht
    have hbnd : r < m.rows ∧ c0 < m.cols := by
      rw [SparseMap.triples, List.mem_map] at ht
      obtain ⟨kv, hkv, he⟩ := ht
      have h1 : kv.1 / m.cols = r := congrArg Prod.fst he
      have h2 : kv.1 % m.cols = c0 := congrArg (fun t => t.2.1) he
      constructor
      · rw [← h1]
        exact Nat.div_lt_of_lt_mul (by rw [Nat.mul_comm]; exact hw.2 kv hkv)
      · rw [← h2]
        exact Nat.mod_lt _ (cols_pos_of_mem hw hkv)
    refine ⟨hbnd.1, hbnd.2, ?_, ?_⟩
    · rw [triples_eq_M1 m] at ht
      have hm := (M1.mem_triples_iff _ (decoded_wf m hw) r c0 v).mp ht
      rw [get_eq_decoded m hw r c0 hbnd.2]
      exact hm.1
    · rw [triples_eq_M1 m] at ht
      exact ((M1.mem_triples_iff _ (decoded_wf m hw) r c0 v).mp ht).2
  · rintro ⟨hr, hc, hval, hv⟩
    rw [triples_eq_M1 m]
    apply (M1.mem_triples_iff _ (decoded_wf m hw) r c0 v).mpr
    refine ⟨?_, hv⟩
    show JsMap.getv (m.elements.map (decE m.cols)) (r, c0) = v
    rw [← get_eq_decoded m hw r c0 hc]
    exact hval

theorem foldl_set_shape (f : SparseMap → (Nat × Nat × Int) → SparseMap)
    (hf : ∀ m t, ∃ es, f m t = ⟨m.rows, m.cols, es⟩) :
    ∀ (l : List (Nat × Nat × Int)) (m : SparseMap),
      ∃ es, l.foldl f m = ⟨m.rows, m.cols, es⟩ := by
  intro l
  induction l with
  | nil => intro m; exact ⟨m.elements, rfl⟩
  | cons t l ih =>
    intro m
    rw [List.foldl_cons]
    obtain ⟨es, he⟩ := hf m t
    obtain ⟨es2, he2⟩ := ih (f m t)
    exact ⟨es2, by rw [he2, he]⟩

theorem add_shape (a b : SparseMap) :
    ∃ es, a.add b = .ok ⟨a.rows, a.cols, es⟩ := by
  obtain ⟨es1, h1⟩ := foldl_set_shape (fun res t => res.set t.1 t.2.1 t.2.2)
    (fun m t => ⟨_, rfl⟩) a.triples ⟨a.rows, a.cols, []⟩
  obtain ⟨es2, h2⟩ := foldl_set_shape
    (fun res t => res.set t.1 t.2.1 (res.get t.1 t.2.1 + t.2.2))
    (fun m t => ⟨_, rfl⟩) b.triples
    (a.triples.foldl (fun res t => res.set t.1 t.2.1 t.2.2) ⟨a.rows, a.cols, []⟩)
  refine ⟨es2, ?_⟩
  show Except.ok _ = _
  rw [h2, h1]

theorem subtract_shape (a b : SparseMap) :
    ∃ es, a.subtract b = .ok ⟨a.rows, a.cols, es⟩ := by
  obtain ⟨es1, h1⟩ := foldl_set_shape (fun res t => res.set t.1 t.2.1 t.2.2)
    (fun m t => ⟨_, rfl⟩) a.triples ⟨a.rows, a.cols, []⟩
  obtain ⟨es2, h2⟩ := foldl_set_shape
    (fun res t => res.set t.1 t.2.1 (res.get t.1 t.2.1 - t.2.2))
    (fun m t => ⟨_, rfl⟩) b.triples
    (a.triples.foldl (fun res t => res.set t.1 t.2.1 t.2.2) ⟨a.rows, a.cols, []⟩)
  refine ⟨es2, ?_⟩
  show Except.ok _ = _
  rw [h2, h1]

theorem addResult_wf (a b : SparseMap) (hrw : a.rows = b.rows)
    (hcl : a.cols = b.cols) (ha : a.Wf) (hb : b.Wf) :
    (SparseMap.mk a.rows a.cols
      (JsMap.applyAdd (JsMap.copySet a.elements) b.elements)).Wf := by
  constructor
  · show JsMap.Wf (JsMap.applyAdd (JsMap.copySet a.elements) b.elements)
    rw [JsMap.copySet_eq ha.1]
    exact ha.1.applyAdd _
  · intro kv hkv
    show kv.1 < a.rows * a.cols
    rw [JsMap.copySet_eq ha.1] at hkv
    have hk : kv.1 ∈ JsMap.keys (JsMap.applyAdd a.elements b.elements) :=
      List.mem_map_of_mem Prod.fst hkv
    rcases JsMap.mem_keys_applyAdd hk with h | h
    · rw [JsMap.keys, List.mem_map] at h
      obtain ⟨t, ht, hteq⟩ := h
      rw [← hteq]
      exact ha.2 t ht
    · rw [List.mem_map] at h
      obtain ⟨t, ht, hteq⟩ := h
      rw [← hteq, hrw, hcl]
      exact hb.2 t ht

theorem subResult_wf (a b : SparseMap) (hrw : a.rows = b.rows)
    (hcl : a.cols = b.cols) (ha : a.Wf) (hb : b.Wf) :
    (SparseMap.mk a.rows a.cols
      (JsMap.applySub (JsMap.copySet a.elements) b.elements)).Wf := by
  constructor
  · show JsMap.Wf (JsMap.applySub (JsMap.copySet a.elements) b.elements)
    rw [JsMap.copySet_eq ha.1]
    exact ha.1.applySub _
  · intro kv hkv
    show kv.1 < a.rows * a.cols
    rw [JsMap.copySet_eq ha.1] at hkv
    have hk : kv.1 ∈ JsMap.keys (JsMap.applySub a.elements b.elements) :=
      List.mem_map_of_mem Prod.fst hkv
    rcases JsMap.mem_keys_applySub hk with h | h
    · rw [JsMap.keys, List.mem_map] at h
      obtain ⟨t, ht, hteq⟩ := h
      rw [← hteq]
      exact ha.2 t ht
    · rw [List.mem_map] at h
      obtain ⟨t, ht, hteq⟩ := h
      rw [← hteq, hrw, hcl]
      exact hb.2 t ht

theorem mulElemsE_eq_enc (a b : SparseMap) (hb : b.Wf) :
    mulElemsE b.cols a.triples b.triples
      = (M1.mulElems (a.elements.map (decE a.cols))
          (b.elements.map (decE b.cols))).map (encE b.cols) := by
  rw [mulElemsE_sim b.cols a.triples b.triples (triples_col_bound b hb),
    triples_toPair a, triples_toPair b]

theorem mul_keys_col (a b : SparseMap) (hb : b.Wf) :
    ∀ p ∈ JsMap.keys (M1.mulElems (a.elements.map (decE a.cols))
        (b.elements.map (decE b.cols))), p.2 < b.cols := by
  intro p hp
  obtain ⟨_, ⟨kv2, hkv2, he⟩⟩ := M1.mem_keys_mulElems hp
  rw [← he]
  exact decoded_bound_col b hb kv2 hkv2

theorem mul_keys_row (a b : SparseMap) (ha : a.Wf) :
    ∀ p ∈ JsMap.keys (M1.mulElems (a.elements.map (decE a.cols))
        (b.elements.map (decE b.cols))), p.1 < a.rows := by
  intro p hp
  obtain ⟨⟨kv1, hkv1, he⟩, _⟩ := M1.mem_keys_mulElems hp
  rw [← he]
  exact decoded_bound_row a ha kv1 hkv1

theorem mulResult_wf (a b : SparseMap) (ha : a.Wf) (hb : b.Wf) :
    (SparseMap.mk a.rows b.cols (mulElemsE b.cols a.triples b.triples)).Wf := by
  constructor
  · show JsMap.Wf (mulElemsE b.cols a.triples b.triples)
    rw [mulElemsE_eq_enc a b hb]
    constructor
    · have hkeq : JsMap.keys ((M1.mulElems (a.elements.map (decE a.cols))
          (b.elements.map (decE b.cols))).map (encE b.cols))
          = (JsMap.keys (M1.mulElems (a.elements.map (decE a.cols))
              (b.elements.map (decE b.cols)))).map
              (fun p => p.1 * b.cols + p.2) := by
        unfold JsMap.keys
        rw [List.map_map, List.map_map]
        rfl
      rw [hkeq]
      apply List.Nodup.map_on ?_ (M1.Wf_mulElems _ _).1
      intro p hp q hq he
      obtain ⟨h1, h2⟩ := enc_inj b.cols (mul_keys_col a b hb p hp)
        (mul_keys_col a b hb q hq) he
      exact Prod.ext h1 h2
    · intro kv hkv
      rw [List.mem_map] at hkv
      obtain ⟨t, ht, rfl⟩ := hkv
      exact (M1.Wf_mulElems _ _).2 t ht
  · intro kv hkv
    show kv.1 < a.rows * b.cols
    rw [mulElemsE_eq_enc a b hb, List.mem_map] at hkv
    obtain ⟨t, ht, rfl⟩ := hkv
    have hk : t.1 ∈ JsMap.keys (M1.mulElems (a.elements.map (decE a.cols))
        (b.elements.map (decE b.cols))) := List.mem_map_of_mem Prod.fst ht
    have hrow := mul_keys_row a b ha t.1 hk
    have hcol := mul_keys_col a b hb t.1 hk
    show t.1.1 * b.cols + t.1.2 < a.rows * b.cols
    calc t.1.1 * b.cols + t.1.2 < t.1.1 * b.cols + b.cols := by omega
      _ = (t.1.1 + 1) * b.cols := by ring
      _ ≤ a.rows * b.cols := Nat.mul_le_mul_right b.cols (Nat.succ_le_of_lt hrow)

theorem mulResult_triples (a b : SparseMap) (hb : b.Wf) :
    (SparseMap.mk a.rows b.cols (mulElemsE b.cols a.triples b.triples)).triples
      = M1.triples ⟨a.rows, b.cols,
          M1.mulElems (a.elements.map (decE a.cols))
            (b.elements.map (decE b.cols))⟩ := by
  show (mulElemsE b.cols a.triples b.triples).map
      (fun kv => (kv.1 / b.cols, kv.1 % b.cols, kv.2)) = _
  rw [mulElemsE_eq_enc a b hb,
    triples_map_encE b.cols _ (fun kv hkv =>
      mul_keys_col a b hb kv.1 (List.mem_map_of_mem Prod.fst hkv))]
  rfl

end M2

/-! ## The claims -/

/-- C4: multiplying matrices with A.cols different from B.rows raises
DimensionMismatch in both implementations, before anything is computed, so
no partial or wrong-shaped result is produced.  The embedding is pure
state passing: multiply reads its operands and builds only the fresh
result matrix (the source writes only through result.setElement), so
neither operand is added to, removed from, or modified. -/
theorem C4_multiply_dimension_mismatch
    (a b : M1.SparseMatrix) (a2 b2 : M2.SparseMap)
    (h : a.cols ≠ b.rows) (h2 : a2.cols ≠ b2.rows) :
    M1.multiply a b = .error .dimensionMismatch
    ∧ a2.multiply b2 = .error .dimensionMismatch := by
  constructor
  · unfold M1.multiply
    rw [if_pos h]
  · unfold M2.SparseMap.multiply
    rw [if_pos h2]

theorem C4_multiply_dimension_mismatch_witness :
    ((⟨2, 3, []⟩ : M1.SparseMatrix).cols ≠ (⟨2, 2, []⟩ : M1.SparseMatrix).rows)
    ∧ M1.multiply ⟨2, 3, []⟩ ⟨2, 2, []⟩ = .error .dimensionMismatch
    ∧ M2.SparseMap.multiply ⟨2, 3, [(0, 1)]⟩ ⟨2, 2, [(0, 5)]⟩
        = .error .dimensionMismatch :=
  ⟨by decide,
    (C4_multiply_dimension_mismatch ⟨2, 3, []⟩ ⟨2, 2, []⟩ ⟨2, 3, [(0, 1)]⟩
      ⟨2, 2, [(0, 5)]⟩ (by decide) (by decide)).1,
    (C4_multiply_dimension_mismatch ⟨2, 3, []⟩ ⟨2, 2, []⟩ ⟨2, 3, [(0, 1)]⟩
      ⟨2, 2, [(0, 5)]⟩ (by decide) (by decide)).2⟩

/-- C3 counterexample: on operands of mismatched dimensions (1x1 against
2x2), add and subtract of both implementations return an ok result instead
of failing with a DimensionMismatch error, refuting the claim as stated. -/
theorem C3_add_subtract_no_check_counterexample :
    ((⟨1, 1, [((0, 0), 1)]⟩ : M1.SparseMatrix).rows
        ≠ (⟨2, 2, [((0, 0), 2)]⟩ : M1.SparseMatrix).rows)
    ∧ M1.add ⟨1, 1, [((0, 0), 1)]⟩ ⟨2, 2, [((0, 0), 2)]⟩
        = .ok ⟨1, 1, [((0, 0), 3)]⟩
    ∧ M1.subtract ⟨1, 1, [((0, 0), 1)]⟩ ⟨2, 2, [((0, 0), 2)]⟩
        = .ok ⟨1, 1, [((0, 0), -1)]⟩
    ∧ M2.SparseMap.add ⟨1, 1, [(0, 1)]⟩ ⟨2, 2, [(0, 2)]⟩ = .ok ⟨1, 1, [(0, 3)]⟩
    ∧ M2.SparseMap.subtract ⟨1, 1, [(0, 1)]⟩ ⟨2, 2, [(0, 2)]⟩
        = .ok ⟨1, 1, [(0, -1)]⟩ := by
  decide

/-- C3 amended: add and subtract perform no dimension validation (the
check is commented out in src/index.js and absent from part_000); even on
operands of mismatched dimensions they return an ok result whose
dimensions are those of the first operand, in both implementations. -/
theorem C3_add_subtract_no_check_amended
    (a b : M1.SparseMatrix) (a2 b2 : M2.SparseMap)
    (_h : a.rows ≠ b.rows ∨ a.cols ≠ b.cols)
    (_h2 : a2.rows ≠ b2.rows ∨ a2.cols ≠ b2.cols) :
    (∃ cm, M1.add a b = .ok cm ∧ cm.rows = a.rows ∧ cm.cols = a.cols)
    ∧ (∃ cm, M1.subtract a b = .ok cm ∧ cm.rows = a.rows ∧ cm.cols = a.cols)
    ∧ (∃ cm2, a2.add b2 = .ok cm2 ∧ cm2.rows = a2.rows ∧ cm2.cols = a2.cols)
    ∧ (∃ cm2, a2.subtract b2 = .ok cm2 ∧ cm2.rows = a2.rows
        ∧ cm2.cols = a2.cols) := by
  refine ⟨⟨_, M1.add_elems a b, rfl, rfl⟩,
    ⟨_, M1.subtract_elems a b, rfl, rfl⟩, ?_, ?_⟩
  · obtain ⟨es, he⟩ := M2.add_shape a2 b2
    exact ⟨_, he, rfl, rfl⟩
  · obtain ⟨es, he⟩ := M2.subtract_shape a2 b2
    exact ⟨_, he, rfl, rfl⟩

theorem C3_add_subtract_no_check_amended_witness :
    ((1 : Nat) ≠ 2 ∨ (1 : Nat) ≠ 2)
    ∧ ((∃ cm, M1.add ⟨1, 1, []⟩ ⟨2, 2, []⟩ = .ok cm
          ∧ cm.rows = 1 ∧ cm.cols = 1)
      ∧ (∃ cm, M1.subtract ⟨1, 1, []⟩ ⟨2, 2, []⟩ = .ok cm
          ∧ cm.rows = 1 ∧ cm.cols = 1)
      ∧ (∃ cm2, M2.SparseMap.add ⟨1, 1, []⟩ ⟨2, 2, []⟩ = .ok cm2
          ∧ cm2.rows = 1 ∧ cm2.cols = 1)
      ∧ (∃ cm2, M2.SparseMap.subtract ⟨1, 1, []⟩ ⟨2, 2, []⟩ = .ok cm2
          ∧ cm2.rows = 1 ∧ cm2.cols = 1)) :=
  ⟨Or.inl (by decide),
    C3_add_subtract_no_check_amended ⟨1, 1, []⟩ ⟨2, 2, []⟩ ⟨1, 1, []⟩
      ⟨2, 2, []⟩ (Or.inl (by decide)) (Or.inl (by decide))⟩

/-- C5 counterexample: when the matrix already stores an entry at (r, c)
(here value 7 at (0, 0)), the sequence set(r,c,5); set(r,c,0) does not
return the entry count to its value before the sequence: size drops from
1 to 0.  Shown on src/index.js; SparseMap.set of part_000 performs the
same JsMap.setv on its numeric key. -/
theorem C5_set_size_counterexample :
    M1.size ⟨1, 1, [((0, 0), 7)]⟩ = 1
    ∧ M1.size (M1.setElement (M1.setElement ⟨1, 1, [((0, 0), 7)]⟩ 0 0 5) 0 0 0)
        = 0 := by
  decide

/-- C5 amended: set(r,c,v) with v nonzero stores v at (r,c) overwriting any
prior value, set(r,c,0) removes any entry at (r,c), the store never holds a
zero value, and after set(r,c,5); set(r,c,0) the coordinate reads 0 and the
entry count returns to its prior value whenever no entry was stored at
(r,c) before the sequence, while it drops by exactly one when one was.
Shown for both implementations (part_000 at its numeric key). -/
theorem C5_set_semantics_amended (m : M1.SparseMatrix) (m2 : M2.SparseMap)
    (r c : Nat) (v : Int)
    (hw : JsMap.Wf m.elements) (hw2 : JsMap.Wf m2.elements) :
    (v ≠ 0 → M1.getElement (M1.setElement m r c v) r c = v)
    ∧ M1.getElement (M1.setElement m r c 0) r c = 0
    ∧ (r, c) ∉ JsMap.keys (M1.setElement m r c 0).elements
    ∧ JsMap.Wf (M1.setElement m r c v).elements
    ∧ ((r, c) ∉ JsMap.keys m.elements →
        M1.size (M1.setElement (M1.setElement m r c 5) r c 0) = M1.size m)
    ∧ ((r, c) ∈ JsMap.keys m.elements →
        M1.size (M1.setElement (M1.setElement m r c 5) r c 0) + 1 = M1.size m)
    ∧ M1.getElement (M1.setElement (M1.setElement m r c 5) r c 0) r c = 0
    ∧ (v ≠ 0 → (m2.set r c v).get r c = v)
    ∧ (m2.set r c 0).get r c = 0
    ∧ m2.getKey r c ∉ JsMap.keys (m2.set r c 0).elements
    ∧ JsMap.Wf (m2.set r c v).elements
    ∧ (m2.getKey r c ∉ JsMap.keys m2.elements →
        ((m2.set r c 5).set r c 0).size = m2.size)
    ∧ (m2.getKey r c ∈ JsMap.keys m2.elements →
        ((m2.set r c 5).set r c 0).size + 1 = m2.size)
    ∧ ((m2.set r c 5).set r c 0).get r c = 0 := by
  have hset5 : ∀ x : List ((Nat × Nat) × Int),
      JsMap.setv x (r, c) 5 = JsMap.mset x (r, c) 5 := fun x => by
    rw [JsMap.setv, if_pos (by decide)]
  have hset0 : ∀ x : List ((Nat × Nat) × Int),
      JsMap.setv x (r, c) 0 = JsMap.mdel x (r, c) := fun x => by
    rw [JsMap.setv, if_neg (by simp)]
  have hset5n : ∀ x : List (Nat × Int),
      JsMap.setv x (m2.getKey r c) 5 = JsMap.mset x (m2.getKey r c) 5 :=
    fun x => by rw [JsMap.setv, if_pos (by decide)]
  have hset0n : ∀ x : List (Nat × Int),
      JsMap.setv x (m2.getKey r c) 0 = JsMap.mdel x (m2.getKey r c) :=
    fun x => by rw [JsMap.setv, if_neg (by simp)]
  refine ⟨?_, ?_, ?_, hw.setv _ v, ?_, ?_, ?_, ?_, ?_, ?_, hw2.setv _ v, ?_, ?_, ?_⟩
  · intro _
    show JsMap.getv (JsMap.setv m.elements (r, c) v) (r, c) = v
    rw [JsMap.getv_setv hw.1, if_pos rfl]
  · show JsMap.getv (JsMap.setv m.elements (r, c) 0) (r, c) = 0
    rw [JsMap.getv_setv hw.1, if_pos rfl]
  · show (r, c) ∉ JsMap.keys (JsMap.setv m.elements (r, c) 0)
    rw [hset0, ← JsMap.mget_eq_none_iff]
    exact JsMap.mget_mdel_self m.elements (r, c) hw.1
  · intro hnot
    show (JsMap.setv (JsMap.setv m.elements (r, c) 5) (r, c) 0).length
      = m.elements.length
    rw [hset5, hset0, JsMap.mset_of_not_mem m.elements 5 hnot]
    have hmem : (r, c) ∈ JsMap.keys (m.elements ++ [((r, c), 5)]) := by
      unfold JsMap.keys
      rw [List.map_append, List.mem_append]
      right
      simp
    have hlen := JsMap.length_mdel_mem (m.elements ++ [((r, c), 5)]) hmem
    rw [List.length_append, List.length_singleton] at hlen
    omega
  · intro hmem0
    show (JsMap.setv (JsMap.setv m.elements (r, c) 5) (r, c) 0).length + 1
      = m.elements.length
    rw [hset5, hset0]
    have hmem : (r, c) ∈ JsMap.keys (JsMap.mset m.elements (r, c) 5) :=
      (JsMap.mem_keys_mset _ _ _ _).mpr (Or.inl rfl)
    have hlen := JsMap.length_mdel_mem (JsMap.mset m.elements (r, c) 5) hmem
    rw [JsMap.length_mset_mem m.elements 5 hmem0] at hlen
    omega
  · show JsMap.getv (JsMap.setv (JsMap.setv m.elements (r, c) 5) (r, c) 0) (r, c) = 0
    rw [JsMap.getv_setv (JsMap.nodup_keys_setv hw.1 _ _), if_pos rfl]
  · intro _
    show JsMap.getv (JsMap.setv m2.elements (m2.getKey r c) v) (m2.getKey r c) = v
    rw [JsMap.getv_setv hw2.1, if_pos rfl]
  · show JsMap.getv (JsMap.setv m2.elements (m2.getKey r c) 0) (m2.getKey r c) = 0
    rw [JsMap.getv_setv hw2.1, if_pos rfl]
  · show m2.getKey r c ∉ JsMap.keys (JsMap.setv m2.elements (m2.getKey r c) 0)
    rw [hset0n, ← JsMap.mget_eq_none_iff]
    exact JsMap.mget_mdel_self m2.elements _ hw2.1
  · intro hnot
    show (JsMap.setv (JsMap.setv m2.elements (m2.getKey r c) 5)
        (m2.getKey r c) 0).length = m2.elements.length
    rw [hset5n, hset0n, JsMap.mset_of_not_mem m2.elements 5 hnot]
    have hmem : m2.getKey r c ∈ JsMap.keys (m2.elements ++ [(m2.getKey r c, 5)]) := by
      unfold JsMap.keys
      rw [List.map_append, List.mem_append]
      right
      simp
    have hlen := JsMap.length_mdel_mem (m2.elements ++ [(m2.getKey r c, 5)]) hmem
    rw [List.length_append, List.length_singleton] at hlen
    omega
  · intro hmem0
    show (JsMap.setv (JsMap.setv m2.elements (m2.getKey r c) 5)
        (m2.getKey r c) 0).length + 1 = m2.elements.length
    rw [hset5n, hset0n]
    have hmem : m2.getKey r c ∈ JsMap.keys (JsMap.mset m2.elements (m2.getKey r c) 5) :=
      (JsMap.mem_keys_mset _ _ _ _).mpr (Or.inl rfl)
    have hlen := JsMap.length_mdel_mem (JsMap.mset m2.elements (m2.getKey r c) 5) hmem
    rw [JsMap.length_mset_mem m2.elements 5 hmem0] at hlen
    omega
  · show JsMap.getv (JsMap.setv (JsMap.setv m2.elements (m2.getKey r c) 5)
        (m2.getKey r c) 0) (m2.getKey r c) = 0
    rw [JsMap.getv_setv (JsMap.nodup_keys_setv hw2.1 _ _), if_pos rfl]

theorem C5_set_semantics_amended_witness :
    JsMap.Wf ([((0, 0), 3)] : List ((Nat × Nat) × Int))
    ∧ M1.size (M1.setElement (M1.setElement ⟨2, 2, [((0, 0), 3)]⟩ 1 1 5) 1 1 0)
        = M1.size ⟨2, 2, [((0, 0), 3)]⟩
    ∧ ((⟨2, 2, [(0, 3)]⟩ : M2.SparseMap).set 1 1 0).get 1 1 = 0 :=
  ⟨by decide,
    (C5_set_semantics_amended ⟨2, 2, [((0, 0), 3)]⟩ ⟨2, 2, [(0, 3)]⟩ 1 1 4
      (by decide) (by decide)).2.2.2.2.1 (by decide),
    (C5_set_semantics_amended ⟨2, 2, [((0, 0), 3)]⟩ ⟨2, 2, [(0, 3)]⟩ 1 1 4
      (by decide) (by decide)).2.2.2.2.2.2.2.2.1⟩

/-- C6 counterexample: in the numeric-keyed implementation, on the 2x2
matrix holding only the in-bounds entry (1, 0, 7), the out-of-range read
get(0, 2) (col = 2 is not below cols = 2) aliases the stored key
1 * 2 + 0 = 0 * 2 + 2 and returns 7 instead of 0, refuting the claim that
every out-of-range read returns 0. -/
theorem C6_get_aliasing_counterexample :
    ((⟨2, 2, []⟩ : M2.SparseMap).set 1 0 7).cols ≤ 2
    ∧ ((⟨2, 2, []⟩ : M2.SparseMap).set 1 0 7).get 0 2 = 7
    ∧ (7 : Int) ≠ 0 := by
  decide

/-- C6 amended: get never fails (it is a total function in both
implementations) and returns 0 everywhere on a freshly constructed matrix.
In src/index.js get returns the stored value when an entry exists at the
coordinate and 0 otherwise, and every out-of-range read returns 0.  In
part_000 the same holds for reads with col < cols (in particular
out-of-range rows read 0), but a read with col at or beyond cols looks up
the aliased key row * cols + col and may return a stored non-zero value. -/
theorem C6_get_semantics_amended (m : M1.SparseMatrix) (m2 : M2.SparseMap)
    (r c : Nat) (hm : M1.Wf m) (hm2 : m2.Wf) :
    ((∃ v, JsMap.mget m.elements (r, c) = some v ∧ M1.getElement m r c = v)
      ∨ (JsMap.mget m.elements (r, c) = none ∧ M1.getElement m r c = 0))
    ∧ (m.rows ≤ r ∨ m.cols ≤ c → M1.getElement m r c = 0)
    ∧ (∀ R C r2 c2 : Nat, M1.getElement ⟨R, C, []⟩ r2 c2 = 0)
    ∧ (∀ R C r2 c2 : Nat, (⟨R, C, []⟩ : M2.SparseMap).get r2 c2 = 0)
    ∧ (c < m2.cols → m2.rows ≤ r → m2.get r c = 0)
    ∧ ((∃ v, JsMap.mget m2.elements (m2.getKey r c) = some v ∧ m2.get r c = v)
      ∨ m2.get r c = 0) := by
  refine ⟨?_, ?_, fun R C r2 c2 => rfl, fun R C r2 c2 => rfl, ?_, ?_⟩
  · cases hq : JsMap.mget m.elements (r, c) with
    | none =>
      refine Or.inr ⟨rfl, ?_⟩
      rw [M1.getElement, JsMap.getv, hq]
      rfl
    | some v =>
      refine Or.inl ⟨v, rfl, ?_⟩
      rw [M1.getElement, JsMap.getv, hq]
      rfl
  · intro hout
    apply JsMap.getv_eq_zero_of_not_mem
    intro hmem
    rw [JsMap.mem_keys_iff_isSome] at hmem
    cases hq : JsMap.mget m.elements (r, c) with
    | none => rw [hq] at hmem; simp at hmem
    | some v =>
      have hent := JsMap.mget_mem m.elements hq
      have hb := hm.2 _ hent
      have hb1 : r < m.rows := hb.1
      have hb2 : c < m.cols := hb.2
      rcases hout with hrr | hcc
      · omega
      · omega
  · intro hc hr
    apply JsMap.getv_eq_zero_of_not_mem
    intro hmem
    rw [JsMap.mem_keys_iff_isSome] at hmem
    cases hq : JsMap.mget m2.elements (m2.getKey r c) with
    | none => rw [hq] at hmem; simp at hmem
    | some v =>
      have hent := JsMap.mget_mem m2.elements hq
      have hlt : m2.getKey r c < m2.rows * m2.cols := hm2.2 _ hent
      have hge : m2.rows * m2.cols ≤ m2.getKey r c := by
        unfold M2.SparseMap.getKey
        calc m2.rows * m2.cols ≤ r * m2.cols := Nat.mul_le_mul_right _ hr
          _ ≤ r * m2.cols + c := Nat.le_add_right _ _
      omega
  · cases hq : JsMap.mget m2.elements (m2.getKey r c) with
    | none =>
      refine Or.inr ?_
      rw [M2.SparseMap.get, JsMap.getv, hq]
      rfl
    | some v =>
      refine Or.inl ⟨v, rfl, ?_⟩
      rw [M2.SparseMap.get, JsMap.getv, hq]
      rfl

theorem C6_get_semantics_amended_witness :
    M1.Wf ⟨2, 2, [((1, 0), 7)]⟩
    ∧ (M2.SparseMap.mk 2 2 [(2, 7)]).Wf
    ∧ M1.getElement ⟨2, 2, [((1, 0), 7)]⟩ 0 2 = 0
    ∧ ((M2.SparseMap.mk 2 2 [(2, 7)]).get 5 1 = 0) :=
  ⟨by decide, by decide,
    (C6_get_semantics_amended ⟨2, 2, [((1, 0), 7)]⟩ ⟨2, 2, [(2, 7)]⟩ 0 2
      (by decide) (by decide)).2.1 (Or.inr (by decide)),
    (C6_get_semantics_amended ⟨2, 2, [((1, 0), 7)]⟩ ⟨2, 2, [(2, 7)]⟩ 5 1
      (by decide) (by decide)).2.2.2.2.1 (by decide) (by decide)⟩

/-- C1: for well-formed matrices with A.cols = B.rows, multiply returns a
matrix with rows = A.rows and cols = B.cols whose entry at each coordinate
(i, j) is the sum over k below A.cols of A[i][k] * B[k][j], and the result
stores no entry whose accumulated value is exactly zero.  Shown for both
implementations; in part_000 the coordinate form of the entry values is
read back through keys, so the column index is taken below cols. -/
theorem C1_multiply_correct
    (a b : M1.SparseMatrix) (hab : a.cols = b.rows) (ha : M1.Wf a) (hb : M1.Wf b)
    (a2 b2 : M2.SparseMap) (hab2 : a2.cols = b2.rows)
    (ha2 : a2.Wf) (hb2 : b2.Wf) :
    (∃ cm, M1.multiply a b = .ok cm ∧ cm.rows = a.rows ∧ cm.cols = b.cols
      ∧ (∀ i j, M1.getElement cm i j
          = ∑ k ∈ Finset.range a.cols, M1.getElement a i k * M1.getElement b k j)
      ∧ ∀ kv ∈ cm.elements, kv.2 ≠ 0)
    ∧ (∃ cm2, a2.multiply b2 = .ok cm2 ∧ cm2.rows = a2.rows
      ∧ cm2.cols = b2.cols
      ∧ (∀ i j, j < b2.cols → cm2.get i j
          = ∑ k ∈ Finset.range a2.cols, a2.get i k * b2.get k j)
      ∧ ∀ kv ∈ cm2.elements, kv.2 ≠ 0) := by
  constructor
  · refine ⟨⟨a.rows, b.cols, M1.mulElems a.elements b.elements⟩,
      M1.multiply_elems a b hab, rfl, rfl, ?_, ?_⟩
    · intro i j
      exact M1.getv_mulElems a.elements b.elements a.cols i j ha.1.1
        (fun kv hkv => (ha.2 kv hkv).2) hb.1.1
    · exact (M1.Wf_mulElems a.elements b.elements).2
  · refine ⟨⟨a2.rows, b2.cols, M2.mulElemsE b2.cols a2.triples b2.triples⟩,
      M2.multiply_elemsE a2 b2 hab2, rfl, rfl, ?_, ?_⟩
    · intro i j hj
      exact M2.mulElemsE_get a2 b2 ha2 hb2 i j hj
    · exact M2.mulElemsE_values a2 b2 hb2

theorem C1_multiply_correct_witness :
    ((⟨2, 2, [((0, 0), 1), ((0, 1), 2), ((1, 0), 3), ((1, 1), 4)]⟩
        : M1.SparseMatrix).cols
      = (⟨2, 2, [((0, 0), 5), ((1, 1), 6)]⟩ : M1.SparseMatrix).rows)
    ∧ M1.Wf ⟨2, 2, [((0, 0), 1), ((0, 1), 2), ((1, 0), 3), ((1, 1), 4)]⟩
    ∧ ((∃ cm, M1.multiply
          ⟨2, 2, [((0, 0), 1), ((0, 1), 2), ((1, 0), 3), ((1, 1), 4)]⟩
          ⟨2, 2, [((0, 0), 5), ((1, 1), 6)]⟩ = .ok cm
        ∧ cm.rows = 2 ∧ cm.cols = 2
        ∧ (∀ i j, M1.getElement cm i j
            = ∑ k ∈ Finset.range 2,
                M1.getElement
                  ⟨2, 2, [((0, 0), 1), ((0, 1), 2), ((1, 0), 3), ((1, 1), 4)]⟩ i k
                  * M1.getElement ⟨2, 2, [((0, 0), 5), ((1, 1), 6)]⟩ k j)
        ∧ ∀ kv ∈ cm.elements, kv.2 ≠ 0)
      ∧ (∃ cm2, M2.SparseMap.multiply
            ⟨2, 2, [(0, 1), (1, 2), (2, 3), (3, 4)]⟩
            ⟨2, 2, [(0, 5), (3, 6)]⟩ = .ok cm2
          ∧ cm2.rows = 2 ∧ cm2.cols = 2
          ∧ (∀ i j, j < 2 → cm2.get i j
              = ∑ k ∈ Finset.range 2,
                  (⟨2, 2, [(0, 1), (1, 2), (2, 3), (3, 4)]⟩ : M2.SparseMap).get i k
                    * (⟨2, 2, [(0, 5), (3, 6)]⟩ : M2.SparseMap).get k j)
          ∧ ∀ kv ∈ cm2.elements, kv.2 ≠ 0)) :=
  ⟨rfl, by decide,
    C1_multiply_correct
      ⟨2, 2, [((0, 0), 1), ((0, 1), 2), ((1, 0), 3), ((1, 1), 4)]⟩
      ⟨2, 2, [((0, 0), 5), ((1, 1), 6)]⟩ rfl (by decide) (by decide)
      ⟨2, 2, [(0, 1), (1, 2), (2, 3), (3, 4)]⟩ ⟨2, 2, [(0, 5), (3, 6)]⟩
      rfl (by decide) (by decide)⟩

/-- C2: for well-formed matrices of matching dimensions, add returns a
matrix with the dimensions of A whose value at every coordinate is the
pointwise sum; its stored entries are exactly the coordinates in the union
of the supports of A and B where that sum is non-zero, and no zero value
is ever stored.  Likewise subtract with the pointwise difference.  Shown
for both implementations (for part_000 the support is phrased over the
numeric keys that encode the coordinates). -/
theorem C2_add_subtract_correct
    (a b : M1.SparseMatrix) (a2 b2 : M2.SparseMap)
    (_hr : a.rows = b.rows) (_hc : a.cols = b.cols)
    (hwa : JsMap.Wf a.elements) (hwb : JsMap.Wf b.elements)
    (_hr2 : a2.rows = b2.rows) (hc2 : a2.cols = b2.cols)
    (hwa2 : JsMap.Wf a2.elements) (hwb2 : JsMap.Wf b2.elements) :
    (∃ cm, M1.add a b = .ok cm ∧ cm.rows = a.rows ∧ cm.cols = a.cols
      ∧ (∀ r c, M1.getElement cm r c
          = M1.getElement a r c + M1.getElement b r c)
      ∧ (∀ p : Nat × Nat, p ∈ JsMap.keys cm.elements
          ↔ (p ∈ JsMap.keys a.elements ∨ p ∈ JsMap.keys b.elements)
            ∧ M1.getElement a p.1 p.2 + M1.getElement b p.1 p.2 ≠ 0)
      ∧ ∀ kv ∈ cm.elements, kv.2 ≠ 0)
    ∧ (∃ cm, M1.subtract a b = .ok cm ∧ cm.rows = a.rows ∧ cm.cols = a.cols
      ∧ (∀ r c, M1.getElement cm r c
          = M1.getElement a r c - M1.getElement b r c)
      ∧ (∀ p : Nat × Nat, p ∈ JsMap.keys cm.elements
          ↔ (p ∈ JsMap.keys a.elements ∨ p ∈ JsMap.keys b.elements)
            ∧ M1.getElement a p.1 p.2 - M1.getElement b p.1 p.2 ≠ 0)
      ∧ ∀ kv ∈ cm.elements, kv.2 ≠ 0)
    ∧ (∃ cm2, a2.add b2 = .ok cm2 ∧ cm2.rows = a2.rows ∧ cm2.cols = a2.cols
      ∧ (∀ r c, cm2.get r c = a2.get r c + b2.get r c)
      ∧ (∀ K : Nat, K ∈ JsMap.keys cm2.elements
          ↔ (K ∈ JsMap.keys a2.elements ∨ K ∈ JsMap.keys b2.elements)
            ∧ JsMap.getv a2.elements K + JsMap.getv b2.elements K ≠ 0)
      ∧ ∀ kv ∈ cm2.elements, kv.2 ≠ 0)
    ∧ (∃ cm2, a2.subtract b2 = .ok cm2 ∧ cm2.rows = a2.rows
      ∧ cm2.cols = a2.cols
      ∧ (∀ r c, cm2.get r c = a2.get r c - b2.get r c)
      ∧ (∀ K : Nat, K ∈ JsMap.keys cm2.elements
          ↔ (K ∈ JsMap.keys a2.elements ∨ K ∈ JsMap.keys b2.elements)
            ∧ JsMap.getv a2.elements K - JsMap.getv b2.elements K ≠ 0)
      ∧ ∀ kv ∈ cm2.elements, kv.2 ≠ 0) := by
  refine ⟨⟨⟨a.rows, a.cols, JsMap.applyAdd (JsMap.copyRaw a.elements) b.elements⟩,
      M1.add_elems a b, rfl, rfl, ?_, ?_, ?_⟩,
    ⟨⟨a.rows, a.cols, JsMap.applySub (JsMap.copyRaw a.elements) b.elements⟩,
      M1.subtract_elems a b, rfl, rfl, ?_, ?_, ?_⟩,
    ⟨⟨a2.rows, a2.cols, JsMap.applyAdd (JsMap.copySet a2.elements) b2.elements⟩,
      M2.add_elemsE a2 b2 hc2, rfl, rfl, ?_, ?_, ?_⟩,
    ⟨⟨a2.rows, a2.cols, JsMap.applySub (JsMap.copySet a2.elements) b2.elements⟩,
      M2.subtract_elemsE a2 b2 hc2, rfl, rfl, ?_, ?_, ?_⟩⟩
  · intro r c
    exact M1.add_getv a b hwa.1 hwb.1 (r, c)
  · intro p
    show p ∈ JsMap.keys (JsMap.applyAdd (JsMap.copyRaw a.elements) b.elements) ↔ _
    rw [JsMap.copyRaw_eq hwa.1]
    exact JsMap.addResult_keys_iff hwa hwb p
  · show ∀ kv ∈ JsMap.applyAdd (JsMap.copyRaw a.elements) b.elements, kv.2 ≠ 0
    rw [JsMap.copyRaw_eq hwa.1]
    exact (hwa.applyAdd b.elements).2
  · intro r c
    exact M1.subtract_getv a b hwa.1 hwb.1 (r, c)
  · intro p
    show p ∈ JsMap.keys (JsMap.applySub (JsMap.copyRaw a.elements) b.elements) ↔ _
    rw [JsMap.copyRaw_eq hwa.1]
    exact JsMap.subResult_keys_iff hwa hwb p
  · show ∀ kv ∈ JsMap.applySub (JsMap.copyRaw a.elements) b.elements, kv.2 ≠ 0
    rw [JsMap.copyRaw_eq hwa.1]
    exact (hwa.applySub b.elements).2
  · intro r c
    exact M2.add_get a2 b2 hc2 hwa2 hwb2.1 r c
  · intro K
    show K ∈ JsMap.keys (JsMap.applyAdd (JsMap.copySet a2.elements) b2.elements) ↔ _
    rw [JsMap.copySet_eq hwa2]
    exact JsMap.addResult_keys_iff hwa2 hwb2 K
  · show ∀ kv ∈ JsMap.applyAdd (JsMap.copySet a2.elements) b2.elements, kv.2 ≠ 0
    rw [JsMap.copySet_eq hwa2]
    exact (hwa2.applyAdd b2.elements).2
  · intro r c
    exact M2.subtract_get a2 b2 hc2 hwa2 hwb2.1 r c
  · intro K
    show K ∈ JsMap.keys (JsMap.applySub (JsMap.copySet a2.elements) b2.elements) ↔ _
    rw [JsMap.copySet_eq hwa2]
    exact JsMap.subResult_keys_iff hwa2 hwb2 K
  · show ∀ kv ∈ JsMap.applySub (JsMap.copySet a2.elements) b2.elements, kv.2 ≠ 0
    rw [JsMap.copySet_eq hwa2]
    exact (hwa2.applySub b2.elements).2

theorem C2_add_subtract_correct_witness :
    JsMap.Wf ([((0, 0), 2)] : List ((Nat × Nat) × Int))
    ∧ (∃ cm, M1.add ⟨1, 2, [((0, 0), 2)]⟩ ⟨1, 2, [((0, 0), -2), ((0, 1), 3)]⟩
          = .ok cm
        ∧ cm.rows = 1 ∧ cm.cols = 2
        ∧ (∀ r c, M1.getElement cm r c
            = M1.getElement ⟨1, 2, [((0, 0), 2)]⟩ r c
              + M1.getElement ⟨1, 2, [((0, 0), -2), ((0, 1), 3)]⟩ r c)
        ∧ (∀ p : Nat × Nat, p ∈ JsMap.keys cm.elements
            ↔ (p ∈ JsMap.keys ([((0, 0), 2)] : List ((Nat × Nat) × Int))
                ∨ p ∈ JsMap.keys
                    ([((0, 0), -2), ((0, 1), 3)] : List ((Nat × Nat) × Int)))
              ∧ M1.getElement ⟨1, 2, [((0, 0), 2)]⟩ p.1 p.2
                + M1.getElement ⟨1, 2, [((0, 0), -2), ((0, 1), 3)]⟩ p.1 p.2 ≠ 0)
        ∧ ∀ kv ∈ cm.elements, kv.2 ≠ 0)
    ∧ (∃ cm2, M2.SparseMap.add ⟨1, 2, [(0, 2)]⟩ ⟨1, 2, [(0, -2), (1, 3)]⟩
          = .ok cm2
        ∧ cm2.rows = 1 ∧ cm2.cols = 2
        ∧ (∀ r c, cm2.get r c
            = (⟨1, 2, [(0, 2)]⟩ : M2.SparseMap).get r c
              + (⟨1, 2, [(0, -2), (1, 3)]⟩ : M2.SparseMap).get r c)
        ∧ (∀ K : Nat, K ∈ JsMap.keys cm2.elements
            ↔ (K ∈ JsMap.keys ([(0, 2)] : List (Nat × Int))
                ∨ K ∈ JsMap.keys ([(0, -2), (1, 3)] : List (Nat × Int)))
              ∧ JsMap.getv ([(0, 2)] : List (Nat × Int)) K
                + JsMap.getv ([(0, -2), (1, 3)] : List (Nat × Int)) K ≠ 0)
        ∧ ∀ kv ∈ cm2.elements, kv.2 ≠ 0) :=
  ⟨by decide,
    (C2_add_subtract_correct ⟨1, 2, [((0, 0), 2)]⟩
      ⟨1, 2, [((0, 0), -2), ((0, 1), 3)]⟩ ⟨1, 2, [(0, 2)]⟩
      ⟨1, 2, [(0, -2), (1, 3)]⟩ rfl rfl (by decide) (by decide) rfl rfl
      (by decide) (by decide)).1,
    (C2_add_subtract_correct ⟨1, 2, [((0, 0), 2)]⟩
      ⟨1, 2, [((0, 0), -2), ((0, 1), 3)]⟩ ⟨1, 2, [(0, 2)]⟩
      ⟨1, 2, [(0, -2), (1, 3)]⟩ rfl rfl (by decide) (by decide) rfl rfl
      (by decide) (by decide)).2.2.1⟩

/-- C7: for well-formed matrices of matching dimensions,
subtract(add(A, B), B) yields a matrix equal to A: same dimensions, the
value of A at every coordinate, and exactly the same non-zero entries.
Shown for both implementations (for part_000 the entry sets are compared
through the numeric keys encoding the coordinates). -/
theorem C7_add_subtract_roundtrip
    (a b : M1.SparseMatrix) (a2 b2 : M2.SparseMap)
    (_hr : a.rows = b.rows) (_hc : a.cols = b.cols)
    (hwa : JsMap.Wf a.elements) (hwb : JsMap.Wf b.elements)
    (_hr2 : a2.rows = b2.rows) (hc2 : a2.cols = b2.cols)
    (hwa2 : JsMap.Wf a2.elements) (hwb2 : JsMap.Wf b2.elements) :
    (∃ c1 c2, M1.add a b = .ok c1 ∧ M1.subtract c1 b = .ok c2
      ∧ c2.rows = a.rows ∧ c2.cols = a.cols
      ∧ (∀ r c0, M1.getElement c2 r c0 = M1.getElement a r c0)
      ∧ (∀ t : Nat × Nat × Int, t ∈ M1.triples c2 ↔ t ∈ M1.triples a))
    ∧ (∃ c1 c2, a2.add b2 = .ok c1 ∧ c1.subtract b2 = .ok c2
      ∧ c2.rows = a2.rows ∧ c2.cols = a2.cols
      ∧ (∀ r c0, c2.get r c0 = a2.get r c0)
      ∧ (∀ K : Nat, K ∈ JsMap.keys c2.elements
          ↔ K ∈ JsMap.keys a2.elements)) := by
  constructor
  · refine ⟨⟨a.rows, a.cols, JsMap.applyAdd (JsMap.copyRaw a.elements) b.elements⟩,
      ⟨a.rows, a.cols, JsMap.applySub (JsMap.copyRaw
        (JsMap.applyAdd (JsMap.copyRaw a.elements) b.elements)) b.elements⟩,
      M1.add_elems a b,
      M1.subtract_elems
        ⟨a.rows, a.cols, JsMap.applyAdd (JsMap.copyRaw a.elements) b.elements⟩ b,
      rfl, rfl, ?_, ?_⟩
    all_goals
      have hwc1 : JsMap.Wf (JsMap.applyAdd (JsMap.copyRaw a.elements) b.elements) := by
        rw [JsMap.copyRaw_eq hwa.1]
        exact hwa.applyAdd b.elements
      have hval : ∀ r c0 : Nat,
          JsMap.getv (JsMap.applySub (JsMap.copyRaw
            (JsMap.applyAdd (JsMap.copyRaw a.elements) b.elements)) b.elements) (r, c0)
          = JsMap.getv a.elements (r, c0) := by
        intro r c0
        rw [JsMap.copyRaw_eq hwc1.1, JsMap.getv_applySub hwc1.1,
          JsMap.contribAt_eq_getv hwb.1, JsMap.copyRaw_eq hwa.1,
          JsMap.getv_applyAdd hwa.1, JsMap.contribAt_eq_getv hwb.1]
        ring
      have hwc2 : JsMap.Wf (JsMap.applySub (JsMap.copyRaw
          (JsMap.applyAdd (JsMap.copyRaw a.elements) b.elements)) b.elements) := by
        rw [JsMap.copyRaw_eq hwc1.1]
        exact hwc1.applySub b.elements
    · exact fun r c0 => hval r c0
    · intro t
      have h1 := M1.mem_triples_iff
        ⟨a.rows, a.cols, JsMap.applySub (JsMap.copyRaw
          (JsMap.applyAdd (JsMap.copyRaw a.elements) b.elements)) b.elements⟩
        hwc2 t.1 t.2.1 t.2.2
      have h2 := M1.mem_triples_iff a hwa t.1 t.2.1 t.2.2
      constructor
      · intro ht
        obtain ⟨hv, hnz⟩ := h1.mp ht
        refine h2.mpr ⟨?_, hnz⟩
        show JsMap.getv a.elements (t.1, t.2.1) = t.2.2
        rw [← hval t.1 t.2.1]
        exact hv
      · intro ht
        obtain ⟨hv, hnz⟩ := h2.mp ht
        refine h1.mpr ⟨?_, hnz⟩
        show JsMap.getv (JsMap.applySub (JsMap.copyRaw
          (JsMap.applyAdd (JsMap.copyRaw a.elements) b.elements)) b.elements)
            (t.1, t.2.1) = t.2.2
        rw [hval t.1 t.2.1]
        exact hv
  · have hwc1 : JsMap.Wf (JsMap.applyAdd (JsMap.copySet a2.elements) b2.elements) := by
      rw [JsMap.copySet_eq hwa2]
      exact hwa2.applyAdd b2.elements
    refine ⟨⟨a2.rows, a2.cols, JsMap.applyAdd (JsMap.copySet a2.elements) b2.elements⟩,
      ⟨a2.rows, a2.cols, JsMap.applySub (JsMap.copySet
        (JsMap.applyAdd (JsMap.copySet a2.elements) b2.elements)) b2.elements⟩,
      M2.add_elemsE a2 b2 hc2,
      M2.subtract_elemsE
        ⟨a2.rows, a2.cols, JsMap.applyAdd (JsMap.copySet a2.elements) b2.elements⟩
        b2 hc2,
      rfl, rfl, ?_, ?_⟩
    · intro r c0
      have h2 : (⟨a2.rows, a2.cols, JsMap.applySub (JsMap.copySet
          (JsMap.applyAdd (JsMap.copySet a2.elements) b2.elements)) b2.elements⟩
            : M2.SparseMap).get r c0
          = (⟨a2.rows, a2.cols,
              JsMap.applyAdd (JsMap.copySet a2.elements) b2.elements⟩
                : M2.SparseMap).get r c0
            - b2.get r c0 :=
        M2.subtract_get
          ⟨a2.rows, a2.cols, JsMap.applyAdd (JsMap.copySet a2.elements) b2.elements⟩
          b2 hc2 hwc1 hwb2.1 r c0
      have h1 : (⟨a2.rows, a2.cols,
          JsMap.applyAdd (JsMap.copySet a2.elements) b2.elements⟩
            : M2.SparseMap).get r c0
          = a2.get r c0 + b2.get r c0 :=
        M2.add_get a2 b2 hc2 hwa2 hwb2.1 r c0
      rw [h2, h1]
      ring
    · intro K
      have hval : JsMap.getv (JsMap.applySub
          (JsMap.applyAdd (JsMap.copySet a2.elements) b2.elements) b2.elements) K
          = JsMap.getv a2.elements K := by
        rw [JsMap.getv_applySub hwc1.1, JsMap.contribAt_eq_getv hwb2.1,
          JsMap.copySet_eq hwa2, JsMap.getv_applyAdd hwa2.1,
          JsMap.contribAt_eq_getv hwb2.1]
        ring
      show K ∈ JsMap.keys (JsMap.applySub (JsMap.copySet
          (JsMap.applyAdd (JsMap.copySet a2.elements) b2.elements)) b2.elements) ↔ _
      rw [JsMap.copySet_eq hwc1,
        ← JsMap.getv_ne_zero_iff (hwc1.applySub b2.elements) K, hval,
        JsMap.getv_ne_zero_iff hwa2 K]

theorem C7_add_subtract_roundtrip_witness :
    JsMap.Wf ([((0, 0), 1), ((1, 1), 4)] : List ((Nat × Nat) × Int))
    ∧ (∃ c1 c2, M1.add ⟨2, 2, [((0, 0), 1), ((1, 1), 4)]⟩
          ⟨2, 2, [((0, 0), 5), ((0, 1), -3)]⟩ = .ok c1
        ∧ M1.subtract c1 ⟨2, 2, [((0, 0), 5), ((0, 1), -3)]⟩ = .ok c2
        ∧ c2.rows = 2 ∧ c2.cols = 2
        ∧ (∀ r c0, M1.getElement c2 r c0
            = M1.getElement ⟨2, 2, [((0, 0), 1), ((1, 1), 4)]⟩ r c0)
        ∧ (∀ t : Nat × Nat × Int, t ∈ M1.triples c2
            ↔ t ∈ M1.triples ⟨2, 2, [((0, 0), 1), ((1, 1), 4)]⟩)) :=
  ⟨by decide,
    (C7_add_subtract_roundtrip ⟨2, 2, [((0, 0), 1), ((1, 1), 4)]⟩
      ⟨2, 2, [((0, 0), 5), ((0, 1), -3)]⟩ ⟨2, 2, [(0, 1), (3, 4)]⟩
      ⟨2, 2, [(0, 5), (1, -3)]⟩ rfl rfl (by decide) (by decide) rfl rfl
      (by decide) (by decide)).1⟩

/-- C8: for every part_000 matrix built by in-bounds set calls, iteration
yields every non-zero entry exactly once with the coordinates and value it
was set with: the decoded coordinates are pairwise distinct and in bounds,
a triple is yielded exactly when get returns its non-zero value at those
in-range coordinates, key derivation is collision-free on in-bounds
coordinate pairs, and the iterator decoding inverts it. -/
theorem C8_iteration_faithful (m : M2.SparseMap) (h : M2.Built m) :
    (m.triples.map (fun t => (t.1, t.2.1))).Nodup
    ∧ (∀ t ∈ m.triples, t.1 < m.rows ∧ t.2.1 < m.cols)
    ∧ (∀ r c v, r < m.rows → c < m.cols →
        ((r, c, v) ∈ m.triples ↔ m.get r c = v ∧ v ≠ 0))
    ∧ (∀ r c r2 c2, r < m.rows → c < m.cols → r2 < m.rows → c2 < m.cols →
        (m.getKey r c = m.getKey r2 c2 ↔ r = r2 ∧ c = c2))
    ∧ (∀ r c, r < m.rows → c < m.cols →
        m.getKey r c / m.cols = r ∧ m.getKey r c % m.cols = c) := by
  have hw := h.wf
  refine ⟨?_, ?_, ?_, ?_, ?_⟩
  · have he : m.triples.map (fun t => (t.1, t.2.1))
        = (JsMap.keys m.elements).map
            (fun k => ((k / m.cols, k % m.cols) : Nat × Nat)) := by
      rw [M2.SparseMap.triples, List.map_map, JsMap.keys, List.map_map]
      rfl
    rw [he]
    exact List.Nodup.map (fun k1 k2 hk => M2.dec_key_inj m.cols hk) hw.1.1
  · intro t ht
    exact ⟨M2.triples_row_bound m hw t ht, M2.triples_col_bound m hw t ht⟩
  · intro r c v hr hc
    rw [M2.mem_triples_iffE m hw r c v]
    constructor
    · rintro ⟨_, _, h3, h4⟩
      exact ⟨h3, h4⟩
    · rintro ⟨h3, h4⟩
      exact ⟨hr, hc, h3, h4⟩
  · intro r c r2 c2 _ hc _ hc2
    constructor
    · intro he
      exact M2.enc_inj m.cols hc hc2
        (show r * m.cols + c = r2 * m.cols + c2 from he)
    · rintro ⟨rfl, rfl⟩
      rfl
  · intro r c _ hc
    exact M2.getKey_decode m r c hc

theorem C8_iteration_faithful_witness :
    M2.Built ((⟨2, 3, []⟩ : M2.SparseMap).set 1 2 5)
    ∧ ((1, 2, (5 : Int)) ∈ ((⟨2, 3, []⟩ : M2.SparseMap).set 1 2 5).triples
        ↔ ((⟨2, 3, []⟩ : M2.SparseMap).set 1 2 5).get 1 2 = 5 ∧ (5 : Int) ≠ 0)
    ∧ (((⟨2, 3, []⟩ : M2.SparseMap).set 1 2 5).triples.map
        (fun t => (t.1, t.2.1))).Nodup :=
  have hb : M2.Built ((⟨2, 3, []⟩ : M2.SparseMap).set 1 2 5) :=
    M2.Built.step 1 2 5 (M2.Built.init 2 3) (by decide) (by decide)
  ⟨hb, (C8_iteration_faithful _ hb).2.2.1 1 2 5 (by decide) (by decide),
    (C8_iteration_faithful _ hb).1⟩

/-- C9: parsing fails with MalformedInput when there are fewer than 3
non-blank lines, or when the rows= or cols= header is missing or
unparseable; every later non-blank line that does not match the element
pattern is silently skipped without error (the result collects exactly the
matching lines, in order, so parsing continues past bad lines); blank
lines are ignored throughout (the parse depends only on the trimmed
non-blank line list).  Two concrete anchors: the line (1, 2, abc) does
not match the element pattern and (1, 2, 3) does. -/
theorem C9_parse_errors_and_skip (content : String) (l0 l1 l2 : List Char)
    (rest : List (List Char)) (r c : Nat) :
    ((Parse.linesOf content).length < 3 →
      Parse.parseMatrix content = .error .insufficientData)
    ∧ (Parse.linesOf content = l0 :: l1 :: l2 :: rest →
        (Parse.searchKeyNum Parse.rowsPat l0 = none
          ∨ Parse.searchKeyNum Parse.colsPat l1 = none) →
        Parse.parseMatrix content = .error .wrongFormat)
    ∧ (Parse.linesOf content = l0 :: l1 :: l2 :: rest →
        Parse.searchKeyNum Parse.rowsPat l0 = some r →
        Parse.searchKeyNum Parse.colsPat l1 = some c →
        Parse.parseMatrix content
          = .ok (r, c, (l2 :: rest).filterMap (fun l => Parse.elemSearch l)))
    ∧ (∀ c1 c2 : String, Parse.linesOf c1 = Parse.linesOf c2 →
        Parse.parseMatrix c1 = Parse.parseMatrix c2)
    ∧ Parse.elemSearch "(1, 2, abc)".toList = none
    ∧ Parse.elemSearch "(1, 2, 3)".toList = some (1, 2, 3) := by
  refine ⟨Parse.parse_insufficient content, ?_, ?_,
    Parse.parse_lines_only, by decide, by decide⟩
  · intro hls h
    exact Parse.parse_wrong_format content l0 l1 l2 rest hls h
  · intro hls hr hc
    exact Parse.parse_ok content l0 l1 l2 rest r c hls hr hc

theorem C9_parse_errors_and_skip_witness :
    (Parse.linesOf "rows=2").length < 3
    ∧ Parse.parseMatrix "rows=2" = .error .insufficientData
    ∧ Parse.parseMatrix "rows=2\nculs=3\n(0,0,1)" = .error .wrongFormat
    ∧ Parse.parseMatrix "rows=2\ncols=3\n(0, 0, 4)\n(1, 2, abc)\n(1, 1, -5)"
        = .ok (2, 3, [(0, 0, 4), (1, 1, -5)]) :=
  ⟨by decide,
    (C9_parse_errors_and_skip "rows=2" [] [] [] [] 0 0).1 (by decide),
    (C9_parse_errors_and_skip "rows=2\nculs=3\n(0,0,1)"
      "rows=2".toList "culs=3".toList "(0,0,1)".toList [] 0 0).2.1
      (by decide) (Or.inr (by decide)),
    by
      have h := (C9_parse_errors_and_skip
        "rows=2\ncols=3\n(0, 0, 4)\n(1, 2, abc)\n(1, 1, -5)"
        "rows=2".toList "cols=3".toList "(0, 0, 4)".toList
        ["(1, 2, abc)".toList, "(1, 1, -5)".toList] 2 3).2.2.1
        (by decide) (by decide) (by decide)
      rw [h]
      decide⟩

/-! ## Triple-set characterizations of the operation results -/

namespace M1

theorem add_triples_char (a b : SparseMatrix) (hwa : Wf a) (hwb : Wf b)
    (hr : b.rows = a.rows) (hc : b.cols = a.cols) (t : Nat × Nat × Int) :
    t ∈ triples ⟨a.rows, a.cols,
        JsMap.applyAdd (JsMap.copyRaw a.elements) b.elements⟩
      ↔ t.1 < a.rows ∧ t.2.1 < a.cols
        ∧ getElement a t.1 t.2.1 + getElement b t.1 t.2.1 = t.2.2
        ∧ t.2.2 ≠ 0 := by
  obtain ⟨r, c0, v⟩ := t
  have hwc : JsMap.Wf (JsMap.applyAdd (JsMap.copyRaw a.elements) b.elements) := by
    rw [JsMap.copyRaw_eq hwa.1.1]
    exact hwa.1.applyAdd b.elements
  have hval : getElement ⟨a.rows, a.cols,
      JsMap.applyAdd (JsMap.copyRaw a.elements) b.elements⟩ r c0
      = getElement a r c0 + getElement b r c0 :=
    add_getv a b hwa.1.1 hwb.1.1 (r, c0)
  rw [mem_triples_iff _ hwc r c0 v, hval]
  constructor
  · rintro ⟨h1, h2⟩
    have hkey : ((r, c0) : Nat × Nat) ∈ JsMap.keys
        (JsMap.applyAdd (JsMap.copyRaw a.elements) b.elements) := by
      apply (JsMap.getv_ne_zero_iff hwc (r, c0)).mp
      show getElement ⟨a.rows, a.cols,
          JsMap.applyAdd (JsMap.copyRaw a.elements) b.elements⟩ r c0 ≠ 0
      rw [hval, h1]
      exact h2
    rw [JsMap.copyRaw_eq hwa.1.1] at hkey
    rcases JsMap.mem_keys_applyAdd hkey with h | h
    · rw [JsMap.keys, List.mem_map] at h
      obtain ⟨kv, hkv, hke⟩ := h
      have hb2 := hwa.2 kv hkv
      rw [hke] at hb2
      exact ⟨hb2.1, hb2.2, h1, h2⟩
    · rw [List.mem_map] at h
      obtain ⟨kv, hkv, hke⟩ := h
      have hb2 := hwb.2 kv hkv
      rw [hke, hr, hc] at hb2
      exact ⟨hb2.1, hb2.2, h1, h2⟩
  · rintro ⟨_, _, h1, h2⟩
    exact ⟨h1, h2⟩

theorem sub_triples_char (a b : SparseMatrix) (hwa : Wf a) (hwb : Wf b)
    (hr : b.rows = a.rows) (hc : b.cols = a.cols) (t : Nat × Nat × Int) :
    t ∈ triples ⟨a.rows, a.cols,
        JsMap.applySub (JsMap.copyRaw a.elements) b.elements⟩
      ↔ t.1 < a.rows ∧ t.2.1 < a.cols
        ∧ getElement a t.1 t.2.1 - getElement b t.1 t.2.1 = t.2.2
        ∧ t.2.2 ≠ 0 := by
  obtain ⟨r, c0, v⟩ := t
  have hwc : JsMap.Wf (JsMap.applySub (JsMap.copyRaw a.elements) b.elements) := by
    rw [JsMap.copyRaw_eq hwa.1.1]
    exact hwa.1.applySub b.elements
  have hval : getElement ⟨a.rows, a.cols,
      JsMap.applySub (JsMap.copyRaw a.elements) b.elements⟩ r c0
      = getElement a r c0 - getElement b r c0 :=
    subtract_getv a b hwa.1.1 hwb.1.1 (r, c0)
  rw [mem_triples_iff _ hwc r c0 v, hval]
  constructor
  · rintro ⟨h1, h2⟩
    have hkey : ((r, c0) : Nat × Nat) ∈ JsMap.keys
        (JsMap.applySub (JsMap.copyRaw a.elements) b.elements) := by
      apply (JsMap.getv_ne_zero_iff hwc (r, c0)).mp
      show getElement ⟨a.rows, a.cols,
          JsMap.applySub (JsMap.copyRaw a.elements) b.elements⟩ r c0 ≠ 0
      rw [hval, h1]
      exact h2
    rw [JsMap.copyRaw_eq hwa.1.1] at hkey
    rcases JsMap.mem_keys_applySub hkey with h | h
    · rw [JsMap.keys, List.mem_map] at h
      obtain ⟨kv, hkv, hke⟩ := h
      have hb2 := hwa.2 kv hkv
      rw [hke] at hb2
      exact ⟨hb2.1, hb2.2, h1, h2⟩
    · rw [List.mem_map] at h
      obtain ⟨kv, hkv, hke⟩ := h
      have hb2 := hwb.2 kv hkv
      rw [hke, hr, hc] at hb2
      exact ⟨hb2.1, hb2.2, h1, h2⟩
  · rintro ⟨_, _, h1, h2⟩
    exact ⟨h1, h2⟩

theorem mul_triples_char (a b : SparseMatrix) (hwa : Wf a) (hwb : Wf b)
    (t : Nat × Nat × Int) :
    t ∈ triples ⟨a.rows, b.cols, mulElems a.elements b.elements⟩
      ↔ t.1 < a.rows ∧ t.2.1 < b.cols
        ∧ (∑ k ∈ Finset.range a.cols,
            getElement a t.1 k * getElement b k t.2.1) = t.2.2
        ∧ t.2.2 ≠ 0 := by
  obtain ⟨r, c0, v⟩ := t
  have hwc := Wf_mulElems a.elements b.elements
  have hval : getElement ⟨a.rows, b.cols, mulElems a.elements b.elements⟩ r c0
      = ∑ k ∈ Finset.range a.cols, getElement a r k * getElement b k c0 :=
    getv_mulElems a.elements b.elements a.cols r c0 hwa.1.1
      (fun kv hkv => (hwa.2 kv hkv).2) hwb.1.1
  rw [mem_triples_iff _ hwc r c0 v, hval]
  constructor
  · rintro ⟨h1, h2⟩
    have hkey : ((r, c0) : Nat × Nat)
        ∈ JsMap.keys (mulElems a.elements b.elements) := by
      apply (JsMap.getv_ne_zero_iff hwc (r, c0)).mp
      show getElement ⟨a.rows, b.cols, mulElems a.elements b.elements⟩ r c0 ≠ 0
      rw [hval, h1]
      exact h2
    obtain ⟨⟨kv1, hkv1, he1⟩, ⟨kv2, hkv2, he2⟩⟩ := mem_keys_mulElems hkey
    have he1b : kv1.1.1 = r := he1
    have he2b : kv2.1.2 = c0 := he2
    refine ⟨?_, ?_, h1, h2⟩
    · rw [← he1b]
      exact (hwa.2 kv1 hkv1).1
    · rw [← he2b]
      exact (hwb.2 kv2 hkv2).2
  · rintro ⟨_, _, h1, h2⟩
    exact ⟨h1, h2⟩

end M1

namespace M2

theorem add_triples_charE (a b : SparseMap) (ha : a.Wf) (hb : b.Wf)
    (hr : a.rows = b.rows) (hc : a.cols = b.cols) (t : Nat × Nat × Int) :
    t ∈ (SparseMap.mk a.rows a.cols
        (JsMap.applyAdd (JsMap.copySet a.elements) b.elements)).triples
      ↔ t.1 < a.rows ∧ t.2.1 < a.cols
        ∧ a.get t.1 t.2.1 + b.get t.1 t.2.1 = t.2.2 ∧ t.2.2 ≠ 0 := by
  obtain ⟨r, c0, v⟩ := t
  have hwf := addResult_wf a b hr hc ha hb
  rw [mem_triples_iffE _ hwf r c0 v]
  constructor
  · rintro ⟨h1, h2, h3, h4⟩
    refine ⟨h1, h2, ?_, h4⟩
    rw [← add_get a b hc ha.1 hb.1.1 r c0]
    exact h3
  · rintro ⟨h1, h2, h3, h4⟩
    refine ⟨h1, h2, ?_, h4⟩
    show (SparseMap.mk a.rows a.cols
        (JsMap.applyAdd (JsMap.copySet a.elements) b.elements)).get r c0 = v
    rw [show (SparseMap.mk a.rows a.cols
        (JsMap.applyAdd (JsMap.copySet a.elements) b.elements)).get r c0
        = JsMap.getv (JsMap.applyAdd (JsMap.copySet a.elements) b.elements)
            (r * a.cols + c0) from rfl,
      add_get a b hc ha.1 hb.1.1 r c0]
    exact h3

theorem sub_triples_charE (a b : SparseMap) (ha : a.Wf) (hb : b.Wf)
    (hr : a.rows = b.rows) (hc : a.cols = b.cols) (t : Nat × Nat × Int) :
    t ∈ (SparseMap.mk a.rows a.cols
        (JsMap.applySub (JsMap.copySet a.elements) b.elements)).triples
      ↔ t.1 < a.rows ∧ t.2.1 < a.cols
        ∧ a.get t.1 t.2.1 - b.get t.1 t.2.1 = t.2.2 ∧ t.2.2 ≠ 0 := by
  obtain ⟨r, c0, v⟩ := t
  have hwf := subResult_wf a b hr hc ha hb
  rw [mem_triples_iffE _ hwf r c0 v]
  constructor
  · rintro ⟨h1, h2, h3, h4⟩
    refine ⟨h1, h2, ?_, h4⟩
    rw [← subtract_get a b hc ha.1 hb.1.1 r c0]
    exact h3
  · rintro ⟨h1, h2, h3, h4⟩
    refine ⟨h1, h2, ?_, h4⟩
    show (SparseMap.mk a.rows a.cols
        (JsMap.applySub (JsMap.copySet a.elements) b.elements)).get r c0 = v
    rw [show (SparseMap.mk a.rows a.cols
        (JsMap.applySub (JsMap.copySet a.elements) b.elements)).get r c0
        = JsMap.getv (JsMap.applySub (JsMap.copySet a.elements) b.elements)
            (r * a.cols + c0) from rfl,
      subtract_get a b hc ha.1 hb.1.1 r c0]
    exact h3

theorem mul_triples_charE (a b : SparseMap) (ha : a.Wf) (hb : b.Wf)
    (t : Nat × Nat × Int) :
    t ∈ (SparseMap.mk a.rows b.cols
        (mulElemsE b.cols a.triples b.triples)).triples
      ↔ t.1 < a.rows ∧ t.2.1 < b.cols
        ∧ (∑ k ∈ Finset.range a.cols, a.get t.1 k * b.get k t.2.1) = t.2.2
        ∧ t.2.2 ≠ 0 := by
  obtain ⟨r, c0, v⟩ := t
  have hwf := mulResult_wf a b ha hb
  rw [mem_triples_iffE _ hwf r c0 v]
  constructor
  · rintro ⟨h1, h2, h3, h4⟩
    refine ⟨h1, h2, ?_, h4⟩
    rw [← mulElemsE_get a b ha hb r c0 h2]
    exact h3
  · rintro ⟨h1, h2, h3, h4⟩
    refine ⟨h1, h2, ?_, h4⟩
    show (SparseMap.mk a.rows b.cols
        (mulElemsE b.cols a.triples b.triples)).get r c0 = v
    rw [show (SparseMap.mk a.rows b.cols
        (mulElemsE b.cols a.triples b.triples)).get r c0
        = JsMap.getv (mulElemsE b.cols a.triples b.triples)
            (r * b.cols + c0) from rfl,
      mulElemsE_get a b ha hb r c0 h2]
    exact h3

end M2

/-- C10: the claimed universal cross-implementation equivalence fails for
add and subtract when the two operands have different column counts.
Below, A is the empty 1x1 matrix and B the 1x2 matrix with the single
entry (0, 1, 5), represented identically in both implementations (equal
dimensions, equal well-formed in-bounds triple lists), yet the pair-keyed
add of src/index.js keeps the entry at coordinate (0, 1) while the
numeric-keyed add of src/unnamed/part_000 re-encodes it against the
result's column count 1, so its result decodes to (1, 0, 5): both adds
succeed with identical dimensions but different non-zero triple sets. -/
theorem C10_equivalence_counterexample :
    (M1.Wf ⟨1, 1, []⟩ ∧ M1.Wf ⟨1, 2, [((0, 1), 5)]⟩
      ∧ (⟨1, 1, []⟩ : M2.SparseMap).Wf ∧ (⟨1, 2, [(1, 5)]⟩ : M2.SparseMap).Wf)
    ∧ M1.triples ⟨1, 1, []⟩ = (⟨1, 1, []⟩ : M2.SparseMap).triples
    ∧ M1.triples ⟨1, 2, [((0, 1), 5)]⟩ = [(0, 1, 5)]
    ∧ (⟨1, 2, [(1, 5)]⟩ : M2.SparseMap).triples = [(0, 1, 5)]
    ∧ M1.add ⟨1, 1, []⟩ ⟨1, 2, [((0, 1), 5)]⟩ = .ok ⟨1, 1, [((0, 1), 5)]⟩
    ∧ (⟨1, 1, []⟩ : M2.SparseMap).add ⟨1, 2, [(1, 5)]⟩ = .ok ⟨1, 1, [(1, 5)]⟩
    ∧ M1.triples ⟨1, 1, [((0, 1), 5)]⟩ = [(0, 1, 5)]
    ∧ (⟨1, 1, [(1, 5)]⟩ : M2.SparseMap).triples = [(1, 0, 5)] := by
  decide

/-- C10 (amended): behavioural equivalence of the two implementations at
the matrix interface, with add and subtract restricted to operands of
matching dimensions (the counterexample above shows equivalence fails
without that restriction).  Whenever a pair-keyed matrix of src/index.js
and a numeric-keyed map of src/unnamed/part_000 have equal dimensions,
well-formed in-bounds stores and the same value at every in-bounds
coordinate, for each operand: add and subtract of same-dimension operands
succeed in both implementations with results of identical dimensions and
identical non-zero (row, col, value) triple sets; multiply on
incompatible shapes fails with a dimension mismatch in both; and multiply
on compatible shapes succeeds in both with identical dimensions and
identical triple sets. -/
theorem C10_implementations_equivalent_amended
    (a1 b1 : M1.SparseMatrix) (a2 b2 : M2.SparseMap)
    (har : a1.rows = a2.rows) (hac : a1.cols = a2.cols)
    (hbr : b1.rows = b2.rows) (hbc : b1.cols = b2.cols)
    (hwa1 : M1.Wf a1) (hwb1 : M1.Wf b1) (hwa2 : a2.Wf) (hwb2 : b2.Wf)
    (hva : ∀ r c, r < a1.rows → c < a1.cols →
      M1.getElement a1 r c = a2.get r c)
    (hvb : ∀ r c, r < b1.rows → c < b1.cols →
      M1.getElement b1 r c = b2.get r c) :
    (b1.rows = a1.rows → b1.cols = a1.cols →
      ∃ c1 c2, M1.add a1 b1 = .ok c1 ∧ a2.add b2 = .ok c2
        ∧ c1.rows = c2.rows ∧ c1.cols = c2.cols
        ∧ ∀ t : Nat × Nat × Int, t ∈ M1.triples c1 ↔ t ∈ c2.triples)
    ∧ (b1.rows = a1.rows → b1.cols = a1.cols →
      ∃ c1 c2, M1.subtract a1 b1 = .ok c1 ∧ a2.subtract b2 = .ok c2
        ∧ c1.rows = c2.rows ∧ c1.cols = c2.cols
        ∧ ∀ t : Nat × Nat × Int, t ∈ M1.triples c1 ↔ t ∈ c2.triples)
    ∧ (a1.cols ≠ b1.rows →
        M1.multiply a1 b1 = .error .dimensionMismatch
        ∧ a2.multiply b2 = .error .dimensionMismatch)
    ∧ (a1.cols = b1.rows →
      ∃ c1 c2, M1.multiply a1 b1 = .ok c1 ∧ a2.multiply b2 = .ok c2
        ∧ c1.rows = c2.rows ∧ c1.cols = c2.cols
        ∧ ∀ t : Nat × Nat × Int, t ∈ M1.triples c1 ↔ t ∈ c2.triples) := by
  refine ⟨?_, ?_, ?_, ?_⟩
  · intro hr1 hc1
    have hc2 : a2.cols = b2.cols := hac.symm.trans (hc1.symm.trans hbc)
    have hr2 : a2.rows = b2.rows := har.symm.trans (hr1.symm.trans hbr)
    refine ⟨⟨a1.rows, a1.cols,
        JsMap.applyAdd (JsMap.copyRaw a1.elements) b1.elements⟩,
      ⟨a2.rows, a2.cols,
        JsMap.applyAdd (JsMap.copySet a2.elements) b2.elements⟩,
      M1.add_elems a1 b1, M2.add_elemsE a2 b2 hc2, har, hac, ?_⟩
    intro t
    rw [M1.add_triples_char a1 b1 hwa1 hwb1 hr1 hc1 t,
      M2.add_triples_charE a2 b2 hwa2 hwb2 hr2 hc2 t]
    constructor
    · rintro ⟨h1, h2, h3, h4⟩
      refine ⟨by rw [← har]; exact h1, by rw [← hac]; exact h2, ?_, h4⟩
      rw [← hva t.1 t.2.1 h1 h2,
        ← hvb t.1 t.2.1 (by rw [hr1]; exact h1) (by rw [hc1]; exact h2)]
      exact h3
    · rintro ⟨h1, h2, h3, h4⟩
      have h1a : t.1 < a1.rows := by rw [har]; exact h1
      have h2a : t.2.1 < a1.cols := by rw [hac]; exact h2
      refine ⟨h1a, h2a, ?_, h4⟩
      rw [hva t.1 t.2.1 h1a h2a,
        hvb t.1 t.2.1 (by rw [hr1]; exact h1a) (by rw [hc1]; exact h2a)]
      exact h3
  · intro hr1 hc1
    have hc2 : a2.cols = b2.cols := hac.symm.trans (hc1.symm.trans hbc)
    have hr2 : a2.rows = b2.rows := har.symm.trans (hr1.symm.trans hbr)
    refine ⟨⟨a1.rows, a1.cols,
        JsMap.applySub (JsMap.copyRaw a1.elements) b1.elements⟩,
      ⟨a2.rows, a2.cols,
        JsMap.applySub (JsMap.copySet a2.elements) b2.elements⟩,
      M1.subtract_elems a1 b1, M2.subtract_elemsE a2 b2 hc2, har, hac, ?_⟩
    intro t
    rw [M1.sub_triples_char a1 b1 hwa1 hwb1 hr1 hc1 t,
      M2.sub_triples_charE a2 b2 hwa2 hwb2 hr2 hc2 t]
    constructor
    · rintro ⟨h1, h2, h3, h4⟩
      refine ⟨by rw [← har]; exact h1, by rw [← hac]; exact h2, ?_, h4⟩
      rw [← hva t.1 t.2.1 h1 h2,
        ← hvb t.1 t.2.1 (by rw [hr1]; exact h1) (by rw [hc1]; exact h2)]
      exact h3
    · rintro ⟨h1, h2, h3, h4⟩
      have h1a : t.1 < a1.rows := by rw [har]; exact h1
      have h2a : t.2.1 < a1.cols := by rw [hac]; exact h2
      refine ⟨h1a, h2a, ?_, h4⟩
      rw [hva t.1 t.2.1 h1a h2a,
        hvb t.1 t.2.1 (by rw [hr1]; exact h1a) (by rw [hc1]; exact h2a)]
      exact h3
  · intro hne
    constructor
    · unfold M1.multiply
      rw [if_pos hne]
    · unfold M2.SparseMap.multiply
      rw [if_pos (show a2.cols ≠ b2.rows by rw [← hac, ← hbr]; exact hne)]
  · intro heq
    have heq2 : a2.cols = b2.rows := by rw [← hac, ← hbr]; exact heq
    have hsum : ∀ (i j : Nat), i < a1.rows → j < b1.cols →
        (∑ k ∈ Finset.range a2.cols, a2.get i k * b2.get k j)
          = ∑ k ∈ Finset.range a1.cols,
              M1.getElement a1 i k * M1.getElement b1 k j := by
      intro i j hi hj
      rw [← hac]
      apply Finset.sum_congr rfl
      intro k hk
      have hk2 : k < a1.cols := Finset.mem_range.mp hk
      have hkb : k < b1.rows := by rw [← heq]; exact hk2
      rw [← hva i k hi hk2, ← hvb k j hkb hj]
    refine ⟨⟨a1.rows, b1.cols, M1.mulElems a1.elements b1.elements⟩,
      ⟨a2.rows, b2.cols, M2.mulElemsE b2.cols a2.triples b2.triples⟩,
      M1.multiply_elems a1 b1 heq, M2.multiply_elemsE a2 b2 heq2,
      har, hbc, ?_⟩
    intro t
    rw [M1.mul_triples_char a1 b1 hwa1 hwb1 t,
      M2.mul_triples_charE a2 b2 hwa2 hwb2 t]
    constructor
    · rintro ⟨h1, h2, h3, h4⟩
      refine ⟨by rw [← har]; exact h1, by rw [← hbc]; exact h2, ?_, h4⟩
      rw [hsum t.1 t.2.1 h1 h2]
      exact h3
    · rintro ⟨h1, h2, h3, h4⟩
      have h1a : t.1 < a1.rows := by rw [har]; exact h1
      have h2a : t.2.1 < b1.cols := by rw [hbc]; exact h2
      refine ⟨h1a, h2a, ?_, h4⟩
      rw [← hsum t.1 t.2.1 h1a h2a]
      exact h3

theorem C10_implementations_equivalent_amended_witness :
    ∃ c1 c2,
      M1.multiply ⟨2, 2, [((0, 0), 1), ((0, 1), 2), ((1, 0), 3), ((1, 1), 4)]⟩
          ⟨2, 2, [((0, 0), 5), ((1, 1), 6)]⟩ = .ok c1
      ∧ (⟨2, 2, [(0, 1), (1, 2), (2, 3), (3, 4)]⟩ : M2.SparseMap).multiply
          ⟨2, 2, [(0, 5), (3, 6)]⟩ = .ok c2
      ∧ c1.rows = c2.rows ∧ c1.cols = c2.cols
      ∧ ∀ t : Nat × Nat × Int, t ∈ M1.triples c1 ↔ t ∈ c2.triples :=
  (C10_implementations_equivalent_amended
    ⟨2, 2, [((0, 0), 1), ((0, 1), 2), ((1, 0), 3), ((1, 1), 4)]⟩
    ⟨2, 2, [((0, 0), 5), ((1, 1), 6)]⟩
    ⟨2, 2, [(0, 1), (1, 2), (2, 3), (3, 4)]⟩
    ⟨2, 2, [(0, 5), (3, 6)]⟩
    rfl rfl rfl rfl (by decide) (by decide) (by decide) (by decide)
    (by intro r c hr hc; interval_cases r <;> interval_cases c <;> decide)
    (by intro r c hr hc; interval_cases r <;> interval_cases c <;> decide)).2.2.2
    rfl
